import Mathlib

/-!
Verification of the local persistence and backup/restore pipeline of the
English-visualizer application.

The embedding models:
* the Key-Value Image Store (`src/services/dbService.ts`), an IndexedDB object
  store modelled as an association list from string keys to string values;
* the Line-Delimited Backup Codec (`src/services/backupService.ts`):
  `exportBackup` and `importBackup`, including the incremental line splitting
  with a retained leftover, the per-line JSON parse and shape dispatch, and the
  throttled progress reporting;
* the Segmented Snapshot Codec (`exportToSQLiteChunks` / `importFromSQLite`),
  with SQLite containers modelled as named tables of (id, base64) rows;
* the reconciliation step of `handleBackupImport` in `src/App.tsx`.

JSON.parse / JSON.stringify are host built-ins, not repository code; they are
modelled by a concrete serializer and parser for flat JSON objects with string
keys and string values (the grammar of all backup records except the header,
whose numeric fields make it unparseable in the model; the import ignores the
header either way, so its observable effect is unchanged).  Lines carrying
non-string field values are treated as unparseable, which the import skips;
this coincides with the source behaviour for every record shape exercised
below.
-/

namespace EV

/-! ## Association-list maps

IndexedDB object stores and the JS `Map` used by reconciliation are both
keyed collections with overwrite-on-put semantics.  `setKV` replaces the
entry for an existing key in place and appends a fresh key at the end. -/

def setKV {α : Type} : List (String × α) → String → α → List (String × α)
  | [], k, v => [(k, v)]
  | p :: rest, k, v => if p.1 = k then (k, v) :: rest else p :: setKV rest k v

def lookupKV {α : Type} : List (String × α) → String → Option α
  | [], _ => none
  | p :: rest, k => if p.1 = k then some p.2 else lookupKV rest k

def hasKV {α : Type} (m : List (String × α)) (k : String) : Bool :=
  (lookupKV m k).isSome

def keysOf {α : Type} (m : List (String × α)) : List String :=
  m.map Prod.fst

/-! ## Key-Value Image Store (`src/services/dbService.ts`) -/

/-- The persistent image store: key-to-data-URI mapping (object store
`images` of `EnglishVisualizerDB`). -/
abbrev Store := List (String × String)

/-- `saveImage` (dbService.ts lines 22-31): `store.put(base64, id)`,
an upsert keyed by `id`. -/
def saveImage (st : Store) (id b64 : String) : Store :=
  setKV st id b64

/-- `getImage` (dbService.ts lines 33-42): `resolve(request.result || null)`.
The `|| null` coercion makes an empty-string value indistinguishable from a
missing key. -/
def getImage (st : Store) (id : String) : Option String :=
  match lookupKV st id with
  | some v => if v = "" then none else some v
  | none => none

/-- `getAllKeys` (dbService.ts lines 65-74).  IndexedDB enumerates keys in
ascending key order; every claim proved below is insensitive to enumeration
order, so the model keeps insertion order. -/
def getAllKeys (st : Store) : List String :=
  st.map Prod.fst

/-- `deleteImage` (dbService.ts lines 76-85): `store.delete(id)`. -/
def deleteImage (st : Store) (id : String) : Store :=
  st.filter (fun p => !(p.1 == id))

/-! ### Store lemmas -/

theorem lookupKV_setKV_self {α : Type} (m : List (String × α)) (k : String) (v : α) :
    lookupKV (setKV m k v) k = some v := by
  induction m with
  | nil => simp [setKV, lookupKV]
  | cons p rest ih =>
      by_cases h : p.1 = k
      · simp [setKV, lookupKV, h]
      · simp [setKV, lookupKV, h, ih]

theorem lookupKV_setKV_other {α : Type} (m : List (String × α)) (k k' : String) (v : α)
    (h : k' ≠ k) : lookupKV (setKV m k v) k' = lookupKV m k' := by
  induction m with
  | nil => simp [setKV, lookupKV, Ne.symm h]
  | cons p rest ih =>
      by_cases hp : p.1 = k
      · subst hp
        simp [setKV, lookupKV, Ne.symm h]
      · by_cases hp' : p.1 = k'
        · simp [setKV, lookupKV, hp, hp', h]
        · simp [setKV, lookupKV, hp, hp', ih]

theorem keysOf_setKV_of_mem {α : Type} (m : List (String × α)) (k : String) (v : α)
    (h : k ∈ keysOf m) : keysOf (setKV m k v) = keysOf m := by
  induction m with
  | nil => simp [keysOf] at h
  | cons p rest ih =>
      by_cases hp : p.1 = k
      · simp [setKV, keysOf, hp]
      · have hmem : k ∈ keysOf rest := by
          simp only [keysOf, List.map_cons, List.mem_cons] at h
          exact h.resolve_left (by intro hh; exact hp hh.symm)
        have ih' := ih hmem
        simp only [keysOf] at ih' ⊢
        simp [setKV, hp, ih']

theorem keysOf_setKV_of_not_mem {α : Type} (m : List (String × α)) (k : String) (v : α)
    (h : k ∉ keysOf m) : keysOf (setKV m k v) = keysOf m ++ [k] := by
  induction m with
  | nil => simp [setKV, keysOf]
  | cons p rest ih =>
      simp only [keysOf, List.map_cons, List.mem_cons] at h
      push_neg at h
      have ih' := ih (by simpa [keysOf] using h.2)
      simp only [keysOf] at ih' ⊢
      simp [setKV, Ne.symm h.1, ih']

theorem mem_keysOf_setKV {α : Type} (m : List (String × α)) (k : String) (v : α) :
    k ∈ keysOf (setKV m k v) := by
  by_cases h : k ∈ keysOf m
  · rw [keysOf_setKV_of_mem m k v h]; exact h
  · rw [keysOf_setKV_of_not_mem m k v h]; simp

theorem mem_keysOf_setKV_of_mem {α : Type} (m : List (String × α)) (k a : String) (v : α)
    (h : a ∈ keysOf m) : a ∈ keysOf (setKV m k v) := by
  by_cases hk : k ∈ keysOf m
  · rw [keysOf_setKV_of_mem m k v hk]; exact h
  · rw [keysOf_setKV_of_not_mem m k v hk]; simp [h]

theorem lookupKV_mem_values {α : Type} (m : List (String × α)) (k : String) (v : α)
    (h : lookupKV m k = some v) : v ∈ m.map Prod.snd := by
  induction m with
  | nil => simp [lookupKV] at h
  | cons p rest ih =>
      by_cases hp : p.1 = k
      · simp only [lookupKV, hp, if_pos rfl] at h
        injection h with h
        simp [h]
      · rw [lookupKV, if_neg hp] at h
        simp only [List.map_cons, List.mem_cons]
        exact Or.inr (ih h)

/-! ## JSON text layer

Model of the host's `JSON.stringify` / `JSON.parse` restricted to flat objects
with string keys and string values.  `JSON.stringify` escapes `"`, `\` and
control characters; the model uses the uniform `\u00XX` escape for control
characters (the host mixes short escapes such as `\n` with `\u00XX`; both are
valid JSON and the parser accepts both forms). -/

def toHexDigit (n : Nat) : Char :=
  if n < 10 then Char.ofNat (48 + n) else Char.ofNat (87 + n)

def fromHexDigit (c : Char) : Option Nat :=
  if 48 ≤ c.toNat ∧ c.toNat ≤ 57 then some (c.toNat - 48)
  else if 97 ≤ c.toNat ∧ c.toNat ≤ 102 then some (c.toNat - 87)
  else if 65 ≤ c.toNat ∧ c.toNat ≤ 70 then some (c.toNat - 55)
  else none

/-- Escape one character for a JSON string literal. -/
def escChar (c : Char) : List Char :=
  if c = '"' then ['\\', '"']
  else if c = '\\' then ['\\', '\\']
  else if c.toNat < 32 then
    ['\\', 'u', '0', '0', toHexDigit (c.toNat / 16), toHexDigit (c.toNat % 16)]
  else [c]

def escList (s : List Char) : List Char :=
  s.flatMap escChar

/-- A quoted JSON string literal for `s`. -/
def quoteStr (s : String) : List Char :=
  '"' :: escList s.data ++ ['"']

/-- Map a short escape character back to the character it denotes. -/
def unescChar (c : Char) : Option Char :=
  if c = '"' then some '"'
  else if c = '\\' then some '\\'
  else if c = '/' then some '/'
  else if c = 'n' then some '\n'
  else if c = 't' then some '\t'
  else if c = 'r' then some '\r'
  else if c = 'b' then some (Char.ofNat 8)
  else if c = 'f' then some (Char.ofNat 12)
  else none

/-- Parse the body of a JSON string literal (after the opening quote), up to
and including the closing quote.  Returns the decoded characters and the
input remaining after the closing quote. -/
def parseStrBody : List Char → Option (List Char × List Char)
  | [] => none
  | c :: rest =>
    if c = '"' then some ([], rest)
    else if c = '\\' then
      match rest with
      | [] => none
      | e :: r =>
        if e = 'u' then
          match r with
          | a :: b :: c2 :: d :: r2 =>
            match fromHexDigit a, fromHexDigit b, fromHexDigit c2, fromHexDigit d with
            | some w, some x, some y, some z =>
              match parseStrBody r2 with
              | some (s, t) => some (Char.ofNat (((w * 16 + x) * 16 + y) * 16 + z) :: s, t)
              | none => none
            | _, _, _, _ => none
          | _ => none
        else
          match unescChar e with
          | some ch =>
            match parseStrBody r with
            | some (s, t) => some (ch :: s, t)
            | none => none
          | none => none
    else if c.toNat < 32 then none
    else
      match parseStrBody rest with
      | some (s, t) => some (c :: s, t)
      | none => none

theorem fromHexDigit_toHexDigit : ∀ n : Nat, n < 16 → fromHexDigit (toHexDigit n) = some n := by
  decide

theorem toHexDigit_ne_newline : ∀ n : Nat, n < 16 → toHexDigit n ≠ '\n' := by
  decide

theorem parseStrBody_quote (rest : List Char) :
    parseStrBody ('"' :: rest) = some ([], rest) := by
  rw [parseStrBody.eq_def]; simp

theorem parseStrBody_esc (e : Char) (r : List Char) (he : e ≠ 'u') :
    parseStrBody ('\\' :: e :: r) =
      match unescChar e with
      | some ch =>
        match parseStrBody r with
        | some (s, t) => some (ch :: s, t)
        | none => none
      | none => none := by
  rw [parseStrBody.eq_def]; simp [he]

theorem parseStrBody_u (a b c2 d : Char) (r2 : List Char) :
    parseStrBody ('\\' :: 'u' :: a :: b :: c2 :: d :: r2) =
      match fromHexDigit a, fromHexDigit b, fromHexDigit c2, fromHexDigit d with
      | some w, some x, some y, some z =>
        match parseStrBody r2 with
        | some (s, t) => some (Char.ofNat (((w * 16 + x) * 16 + y) * 16 + z) :: s, t)
        | none => none
      | _, _, _, _ => none := by
  rw [parseStrBody.eq_def]; simp

theorem parseStrBody_plain (c : Char) (rest : List Char) (h1 : c ≠ '"') (h2 : c ≠ '\\')
    (h3 : ¬ c.toNat < 32) :
    parseStrBody (c :: rest) =
      match parseStrBody rest with
      | some (s, t) => some (c :: s, t)
      | none => none := by
  rw [parseStrBody.eq_def]; simp [h1, h2, h3]

/-- The string-literal round trip: parsing the escaped form of `s` followed by
a closing quote recovers `s` and the rest of the input. -/
theorem parseStrBody_escList (s : List Char) (rest : List Char) :
    parseStrBody (escList s ++ '"' :: rest) = some (s, rest) := by
  induction s with
  | nil => simp [escList, parseStrBody_quote]
  | cons c cs ih =>
      have hstep : escList (c :: cs) = escChar c ++ escList cs := by
        simp [escList]
      rw [hstep, List.append_assoc]
      by_cases hq : c = '"'
      · subst hq
        simp only [escChar, ite_true, List.cons_append, List.nil_append]
        rw [parseStrBody_esc _ _ (by decide)]
        simp [unescChar, ih]
      · by_cases hb : c = '\\'
        · subst hb
          simp only [escChar, ite_true, ite_false, if_neg hq, List.cons_append,
            List.nil_append]
          rw [parseStrBody_esc _ _ (by decide)]
          simp [unescChar, ih]
        · by_cases hc : c.toNat < 32
          · have h1 : c.toNat / 16 < 16 := by omega
            have h2 : c.toNat % 16 < 16 := by omega
            simp only [escChar, if_neg hq, if_neg hb, if_pos hc, List.cons_append,
              List.nil_append]
            rw [parseStrBody_u]
            rw [show ('0' : Char) = toHexDigit 0 from by decide]
            rw [fromHexDigit_toHexDigit 0 (by omega), fromHexDigit_toHexDigit _ h1,
              fromHexDigit_toHexDigit _ h2]
            simp only [ih]
            have hval : ((0 * 16 + 0) * 16 + c.toNat / 16) * 16 + c.toNat % 16 = c.toNat := by
              omega
            rw [hval, Char.ofNat_toNat]
          · simp only [escChar, if_neg hq, if_neg hb, if_neg hc, List.cons_append,
              List.nil_append]
            rw [parseStrBody_plain c _ hq hb hc]
            simp [ih]

/-- Escaped text never contains a raw newline: the line-delimited framing of
the backup stream is preserved for arbitrary field contents. -/
theorem newline_not_mem_escList (s : List Char) : '\n' ∉ escList s := by
  induction s with
  | nil => simp [escList]
  | cons c cs ih =>
      have hstep : escList (c :: cs) = escChar c ++ escList cs := by
        simp [escList]
      rw [hstep]
      intro hmem
      rcases List.mem_append.1 hmem with h | h
      · revert h
        by_cases hq : c = '"'
        · subst hq; decide
        · by_cases hb : c = '\\'
          · subst hb; decide
          · by_cases hc : c.toNat < 32
            · simp only [escChar, if_neg hq, if_neg hb, if_pos hc]
              intro h
              have h1 : c.toNat / 16 < 16 := by omega
              have h2 : c.toNat % 16 < 16 := by omega
              rcases List.mem_cons.1 h with h | h
              · exact absurd h (by decide)
              rcases List.mem_cons.1 h with h | h
              · exact absurd h (by decide)
              rcases List.mem_cons.1 h with h | h
              · exact absurd h (by decide)
              rcases List.mem_cons.1 h with h | h
              · exact absurd h (by decide)
              rcases List.mem_cons.1 h with h | h
              · exact toHexDigit_ne_newline _ h1 h.symm
              rcases List.mem_cons.1 h with h | h
              · exact toHexDigit_ne_newline _ h2 h.symm
              · simp at h
            · simp only [escChar, if_neg hq, if_neg hb, if_neg hc]
              intro h
              have hcn : c = '\n' := by
                have hh := h
                simp only [List.mem_singleton] at hh
                exact hh.symm
              subst hcn
              simp at hc
      · exact ih h

/-! ### Flat JSON objects -/

/-- JSON whitespace (space, tab, carriage return, line feed) — exactly
`Char.isWhitespace`. -/
def skipWs (l : List Char) : List Char :=
  l.dropWhile (·.isWhitespace)

theorem skipWs_cons_of_not_ws (c : Char) (l : List Char) (h : c.isWhitespace = false) :
    skipWs (c :: l) = c :: l := by
  simp [skipWs, List.dropWhile_cons, h]

/-- Parse the members of a JSON object (after the opening brace, first member
not yet consumed), up to and including the closing brace.  Fuel bounds the
number of members; callers pass at least the input length. -/
def parseMembers : Nat → List Char → Option (List (String × String) × List Char)
  | 0, _ => none
  | fuel+1, l =>
    match skipWs l with
    | '"' :: r =>
      match parseStrBody r with
      | some (key, r1) =>
        match skipWs r1 with
        | ':' :: r2 =>
          match skipWs r2 with
          | '"' :: r3 =>
            match parseStrBody r3 with
            | some (val, r4) =>
              match skipWs r4 with
              | ',' :: r5 =>
                match parseMembers fuel r5 with
                | some (fs, rest) => some ((String.mk key, String.mk val) :: fs, rest)
                | none => none
              | '\x7d' :: r5 => some ([(String.mk key, String.mk val)], r5)
              | _ => none
            | none => none
          | _ => none
        | _ => none
      | none => none
    | _ => none

/-- Parse one flat JSON object with string keys and string values. -/
def parseObjChars (fuel : Nat) (l : List Char) : Option (List (String × String) × List Char) :=
  match skipWs l with
  | '\x7b' :: r =>
    match skipWs r with
    | '\x7d' :: r2 => some ([], r2)
    | _ => parseMembers fuel r
  | _ => none

/-- Model of `JSON.parse` applied to one line of the backup stream: succeeds
exactly on a flat object with string keys and string values (with trailing
whitespace allowed), returning its fields in order.  Lines outside this
grammar — including the header record, whose `version`/`count` fields are
numbers — are reported as parse failures, which the import skips; the header
is ignored by the shape dispatch in the source as well, so the observable
behaviour of the import agrees. -/
def parseLine (l : List Char) : Option (List (String × String)) :=
  match parseObjChars (l.length + 1) l with
  | some (fields, rest) => if skipWs rest = [] then some fields else none
  | none => none

/-- One `"key":"value"` member as emitted by `JSON.stringify`. -/
def memberChars (f : String × String) : List Char :=
  quoteStr f.1 ++ ':' :: quoteStr f.2

/-- Model of `JSON.stringify` on a flat object with string fields, in field
order, with no interior whitespace. -/
def stringifyObj (fields : List (String × String)) : List Char :=
  match fields with
  | [] => ['\x7b', '\x7d']
  | f :: fs => '\x7b' :: (memberChars f ++ fs.flatMap (fun g => ',' :: memberChars g)) ++ ['\x7d']

theorem skipWs_quote (l : List Char) : skipWs ('"' :: l) = '"' :: l :=
  skipWs_cons_of_not_ws _ _ (by decide)

theorem skipWs_colon (l : List Char) : skipWs (':' :: l) = ':' :: l :=
  skipWs_cons_of_not_ws _ _ (by decide)

theorem skipWs_comma (l : List Char) : skipWs (',' :: l) = ',' :: l :=
  skipWs_cons_of_not_ws _ _ (by decide)

theorem skipWs_rbrace (l : List Char) : skipWs ('\x7d' :: l) = '\x7d' :: l :=
  skipWs_cons_of_not_ws _ _ (by decide)

theorem skipWs_lbrace (l : List Char) : skipWs ('\x7b' :: l) = '\x7b' :: l :=
  skipWs_cons_of_not_ws _ _ (by decide)

theorem parseMembers_stringify (fs : List (String × String)) :
    ∀ (f : String × String) (fuel : Nat) (rest : List Char),
    parseMembers (fuel + fs.length + 1)
        (memberChars f ++ fs.flatMap (fun g => ',' :: memberChars g) ++ '\x7d' :: rest) =
      some (f :: fs, rest) := by
  induction fs with
  | nil =>
      intro f fuel rest
      simp only [List.flatMap_nil, List.append_nil, List.length_nil, Nat.add_zero]
      simp only [memberChars, quoteStr, List.cons_append, List.append_assoc,
        List.nil_append]
      rw [parseMembers]
      rw [skipWs_quote]
      simp only [parseStrBody_escList, skipWs_colon, skipWs_quote, skipWs_rbrace]
  | cons g gs ih =>
      intro f fuel rest
      simp only [List.flatMap_cons, List.length_cons]
      simp only [memberChars, quoteStr, List.cons_append, List.append_assoc,
        List.nil_append]
      rw [show fuel + (gs.length + 1) + 1 = (fuel + gs.length + 1) + 1 from by omega]
      rw [parseMembers]
      rw [skipWs_quote]
      have ihg := ih g fuel rest
      simp only [memberChars, quoteStr, List.cons_append, List.append_assoc,
        List.nil_append] at ihg
      simp only [parseStrBody_escList, skipWs_colon, skipWs_quote, skipWs_comma, ihg]

theorem length_flatMap_members_ge (gs : List (String × String)) :
    gs.length ≤ (gs.flatMap (fun g => ',' :: memberChars g)).length := by
  induction gs with
  | nil => simp
  | cons g gs ih =>
      simp only [List.flatMap_cons, List.length_append, List.length_cons]
      omega

theorem parseObjChars_members (fuel : Nat) (l r : List Char) (c : Char) (r' : List Char)
    (h1 : skipWs l = '\x7b' :: r) (h2 : skipWs r = c :: r') (hc : c ≠ '\x7d') :
    parseObjChars fuel l = parseMembers fuel r := by
  simp only [parseObjChars, h1, h2]
  split
  · rename_i heq
    injection heq with heq
    exact absurd heq hc
  · rfl

/-- The object round trip: `JSON.parse` recovers the fields serialized by
`JSON.stringify` for any nonempty flat string-valued object. -/
theorem parseLine_stringify (f : String × String) (fs : List (String × String)) :
    parseLine (stringifyObj (f :: fs)) = some (f :: fs) := by
  have hbody : stringifyObj (f :: fs) =
      '\x7b' :: ((memberChars f ++ fs.flatMap (fun g => ',' :: memberChars g)) ++ ['\x7d']) := by
    simp [stringifyObj]
  have hmemhead : (memberChars f ++ fs.flatMap (fun g => ',' :: memberChars g)) ++ ['\x7d'] =
      '"' :: (escList f.1.data ++ '"' :: (':' :: ('"' :: (escList f.2.data ++ '"' ::
        (fs.flatMap (fun g => ',' :: memberChars g) ++ ['\x7d']))))) := by
    simp [memberChars, quoteStr]
  unfold parseLine
  rw [parseObjChars_members ((stringifyObj (f :: fs)).length + 1) _
      ((memberChars f ++ fs.flatMap (fun g => ',' :: memberChars g)) ++ ['\x7d']) '"' _
      (by rw [hbody, skipWs_lbrace]) (by rw [hmemhead, skipWs_quote]) (by decide)]
  have hfuel : (stringifyObj (f :: fs)).length + 1 =
      ((stringifyObj (f :: fs)).length - fs.length) + fs.length + 1 := by
    have h1 := length_flatMap_members_ge fs
    simp only [stringifyObj, List.length_cons, List.length_append]
    omega
  rw [hfuel]
  have hshape : (memberChars f ++ fs.flatMap (fun g => ',' :: memberChars g)) ++ ['\x7d'] =
      memberChars f ++ fs.flatMap (fun g => ',' :: memberChars g) ++ '\x7d' :: ([]) := by
    simp
  rw [hshape, parseMembers_stringify fs f _ ([])]
  simp [skipWs]

/-! ## Application records (`src/types.ts`) -/

inductive SStatus where
  | pending
  | processing
  | completed
  | error
deriving DecidableEq, Repr

/-- `EnglishSentence` from `src/types.ts`. -/
structure EnglishSentence where
  id : String
  english_text : String
  imageUrl : Option String := none
  status : SStatus
deriving DecidableEq, Repr

/-! ## Line-Delimited Backup Codec: import (`src/services/backupService.ts`) -/

/-- Property access `data.k` on a parsed JSON object; for duplicate keys
`JSON.parse` keeps the last occurrence. -/
def getField (data : List (String × String)) (k : String) : Option String :=
  ((data.filter (fun p => p.1 = k)).map Prod.snd).getLast?

/-- JS truthiness of a string-valued property: absent and empty-string are
falsy. -/
def truthy (o : Option String) : Bool :=
  match o with
  | some s => !(s == "")
  | none => false

/-- Property read in a context where JS would use the raw value; an absent
property (JS `undefined`) is rendered as the string `"undefined"` — no record
shape dispatched below reads an absent property, so the rendering is inert. -/
def fieldD (data : List (String × String)) (k : String) : String :=
  (getField data k).getD "undefined"

/-- Accumulated state of `importBackup` (backupService.ts lines 108-111),
together with the store being written through `saveImage`. -/
structure ImportAcc where
  store : Store
  imageCount : Nat
  restoredSentences : List EnglishSentence
  legacyImageIds : List String
deriving DecidableEq, Repr

/-- Processing of one complete line (backupService.ts lines 129-154): skip
blank lines, parse, then dispatch on record shape.  The third branch fires
for every parsed record with truthy `id` and `base64` whose `type` is neither
`"sentence"` nor `"image"` — the source checks `data.id && data.base64`, not
the absence of `type`. -/
def processLine (acc : ImportAcc) (l : List Char) : ImportAcc :=
  if l.all (·.isWhitespace) then acc
  else
    match parseLine l with
    | none => acc
    | some data =>
      if getField data "type" = some "sentence" then
        { acc with restoredSentences := acc.restoredSentences ++
            [{ id := fieldD data "id", english_text := fieldD data "text",
               status := SStatus.pending }] }
      else if getField data "type" = some "image" then
        if truthy (getField data "id") && truthy (getField data "base64") then
          { acc with store := saveImage acc.store (fieldD data "id") (fieldD data "base64"),
                     imageCount := acc.imageCount + 1 }
        else acc
      else if truthy (getField data "id") && truthy (getField data "base64") then
        { acc with store := saveImage acc.store (fieldD data "id") (fieldD data "base64"),
                   imageCount := acc.imageCount + 1,
                   legacyImageIds := acc.legacyImageIds ++ [fieldD data "id"] }
      else acc

/-- Processing of the final retained line after the stream ends
(backupService.ts lines 161-175).  Note the dispatch differs from
`processLine`: the image/legacy arm is guarded by
`data.type === 'image' || (data.id && data.base64)` and marks the record as
legacy only when `!data.type`. -/
def processLeftover (acc : ImportAcc) (l : List Char) : ImportAcc :=
  if l.all (·.isWhitespace) then acc
  else
    match parseLine l with
    | none => acc
    | some data =>
      if getField data "type" = some "sentence" then
        { acc with restoredSentences := acc.restoredSentences ++
            [{ id := fieldD data "id", english_text := fieldD data "text",
               status := SStatus.pending }] }
      else if (getField data "type" = some "image") ∨
          (truthy (getField data "id") && truthy (getField data "base64")) = true then
        if truthy (getField data "id") && truthy (getField data "base64") then
          { acc with store := saveImage acc.store (fieldD data "id") (fieldD data "base64"),
                     imageCount := acc.imageCount + 1,
                     legacyImageIds :=
                       if truthy (getField data "type") then acc.legacyImageIds
                       else acc.legacyImageIds ++ [fieldD data "id"] }
        else acc
      else acc

/-- `(leftover + chunk).split('\n')`: split on every newline, keeping empty
segments; never returns an empty list. -/
def splitNl : List Char → List (List Char)
  | [] => [[]]
  | c :: rest =>
    match splitNl rest with
    | [] => [[]]
    | h :: t => if c = '\n' then [] :: h :: t else (c :: h) :: t

/-- The read loop of `importBackup` (backupService.ts lines 119-159): each
decoded chunk is appended to the retained leftover, split on newlines, the
last segment retained, and the complete lines dispatched in order; at end of
stream the retained leftover is processed (lines 161-175). -/
def importChunks (acc : ImportAcc) : List (List Char) → List Char → ImportAcc
  | [], leftover => processLeftover acc leftover
  | chunk :: rest, leftover =>
    let parts := splitNl (leftover ++ chunk)
    importChunks (parts.dropLast.foldl processLine acc) rest (parts.getLastD [])

/-- `importBackup` (backupService.ts lines 100-183) applied to the decoded
text chunks of the file stream, writing through `saveImage` into `st`.
Byte-level progress reporting (line 156-158) has no bearing on any claim and
is omitted. -/
def importBackup (chunks : List (List Char)) (st : Store) : ImportAcc :=
  importChunks ⟨st, 0, [], []⟩ chunks []

/-! ### Line splitting lemmas -/

theorem splitNl_ne_nil (l : List Char) : splitNl l ≠ [] := by
  cases l with
  | nil => simp [splitNl]
  | cons c rest =>
      simp only [splitNl]
      cases h : splitNl rest with
      | nil => simp
      | cons h t =>
          by_cases hc : c = '\n' <;> simp [hc]

theorem splitNl_cons_eq (c : Char) (rest : List Char) :
    splitNl (c :: rest) =
      if c = '\n' then [] :: splitNl rest
      else (c :: (splitNl rest).headD []) :: (splitNl rest).tail := by
  cases h : splitNl rest with
  | nil => exact absurd h (splitNl_ne_nil rest)
  | cons h0 t =>
      by_cases hc : c = '\n' <;> simp [splitNl, h, hc]

theorem mem_splitNl_no_newline (l : List Char) : ∀ p ∈ splitNl l, '\n' ∉ p := by
  induction l with
  | nil =>
      intro p hp
      simp [splitNl] at hp
      simp [hp]
  | cons c rest ih =>
      intro p hp
      rw [splitNl_cons_eq] at hp
      by_cases hc : c = '\n'
      · rw [if_pos hc] at hp
        rcases List.mem_cons.1 hp with h | h
        · simp [h]
        · exact ih p h
      · rw [if_neg hc] at hp
        rcases List.mem_cons.1 hp with h | h
        · subst h
          intro hmem
          rcases List.mem_cons.1 hmem with h | h
          · exact hc h.symm
          · cases ht : splitNl rest with
            | nil => exact absurd ht (splitNl_ne_nil rest)
            | cons h0 t =>
                rw [ht] at h
                simp only [List.headD_cons] at h
                exact ih h0 (by rw [ht]; exact List.mem_cons_self h0 t) h
        · cases ht : splitNl rest with
          | nil => exact absurd ht (splitNl_ne_nil rest)
          | cons h0 t =>
              rw [ht] at h
              simp only [List.tail_cons] at h
              exact ih p (by rw [ht]; exact List.mem_cons_of_mem h0 h)

theorem splitNl_of_no_newline (l : List Char) (h : '\n' ∉ l) : splitNl l = [l] := by
  induction l with
  | nil => simp [splitNl]
  | cons c rest ih =>
      have hc : c ≠ '\n' := fun hh => h (by simp [hh])
      have hrest : '\n' ∉ rest := fun hh => h (List.mem_cons_of_mem c hh)
      rw [splitNl_cons_eq, if_neg hc, ih hrest]
      simp

theorem splitNl_append (a b : List Char) :
    splitNl (a ++ b) = (splitNl a).dropLast ++
      ((splitNl a).getLastD [] ++ (splitNl b).headD []) :: (splitNl b).tail := by
  induction a with
  | nil =>
      cases hb : splitNl b with
      | nil => exact absurd hb (splitNl_ne_nil b)
      | cons h0 t => simp [splitNl, hb]
  | cons c a' ih =>
      rw [List.cons_append, splitNl_cons_eq, ih, splitNl_cons_eq]
      cases ha : splitNl a' with
      | nil => exact absurd ha (splitNl_ne_nil a')
      | cons h0 t =>
          by_cases hc : c = '\n'
          · rw [if_pos hc, if_pos hc]
            cases t with
            | nil => simp
            | cons t0 ts => simp [List.getLastD_cons]
          · rw [if_neg hc, if_neg hc]
            cases t with
            | nil => simp
            | cons t0 ts => simp [List.getLastD_cons]

/-! ### Effect decomposition

The effect of a line on the import accumulator does not depend on the
accumulator; factoring it out lets whole-stream behaviour be computed as a
fold of per-line effects. -/

def applyWrites (st : Store) (W : List (String × String)) : Store :=
  W.foldl (fun s p => saveImage s p.1 p.2) st

structure Effect where
  writes : List (String × String)
  sents : List EnglishSentence
  legacy : List String
deriving DecidableEq, Repr

def Effect.app (e1 e2 : Effect) : Effect :=
  ⟨e1.writes ++ e2.writes, e1.sents ++ e2.sents, e1.legacy ++ e2.legacy⟩

def applyEffect (acc : ImportAcc) (e : Effect) : ImportAcc :=
  ⟨applyWrites acc.store e.writes, acc.imageCount + e.writes.length,
   acc.restoredSentences ++ e.sents, acc.legacyImageIds ++ e.legacy⟩

/-- The effect of one complete line, mirroring `processLine`. -/
def lineEffect (l : List Char) : Effect :=
  if l.all (·.isWhitespace) then ⟨[], [], []⟩
  else
    match parseLine l with
    | none => ⟨[], [], []⟩
    | some data =>
      if getField data "type" = some "sentence" then
        ⟨[], [{ id := fieldD data "id", english_text := fieldD data "text",
                status := SStatus.pending }], []⟩
      else if getField data "type" = some "image" then
        if truthy (getField data "id") && truthy (getField data "base64") then
          ⟨[(fieldD data "id", fieldD data "base64")], [], []⟩
        else ⟨[], [], []⟩
      else if truthy (getField data "id") && truthy (getField data "base64") then
        ⟨[(fieldD data "id", fieldD data "base64")], [], [fieldD data "id"]⟩
      else ⟨[], [], []⟩

/-- The effect of the final retained line, mirroring `processLeftover`. -/
def leftoverEffect (l : List Char) : Effect :=
  if l.all (·.isWhitespace) then ⟨[], [], []⟩
  else
    match parseLine l with
    | none => ⟨[], [], []⟩
    | some data =>
      if getField data "type" = some "sentence" then
        ⟨[], [{ id := fieldD data "id", english_text := fieldD data "text",
                status := SStatus.pending }], []⟩
      else if (getField data "type" = some "image") ∨
          (truthy (getField data "id") && truthy (getField data "base64")) = true then
        if truthy (getField data "id") && truthy (getField data "base64") then
          ⟨[(fieldD data "id", fieldD data "base64")], [],
           if truthy (getField data "type") then [] else [fieldD data "id"]⟩
        else ⟨[], [], []⟩
      else ⟨[], [], []⟩

theorem processLine_eq (acc : ImportAcc) (l : List Char) :
    processLine acc l = applyEffect acc (lineEffect l) := by
  unfold processLine lineEffect applyEffect applyWrites
  by_cases hws : l.all (·.isWhitespace)
  · simp [hws]
  · simp only [hws, if_false, ite_false, Bool.false_eq_true]
    cases hp : parseLine l with
    | none => simp
    | some data =>
        by_cases h1 : getField data "type" = some "sentence"
        · simp [h1]
        · by_cases h2 : getField data "type" = some "image"
          · by_cases h3 : (truthy (getField data "id") && truthy (getField data "base64")) = true
            · simp [h1, h2, h3, saveImage]
            · simp [h1, h2, h3]
          · by_cases h3 : (truthy (getField data "id") && truthy (getField data "base64")) = true
            · simp [h1, h2, h3, saveImage]
            · simp [h1, h2, h3]

theorem processLeftover_eq (acc : ImportAcc) (l : List Char) :
    processLeftover acc l = applyEffect acc (leftoverEffect l) := by
  unfold processLeftover leftoverEffect applyEffect applyWrites
  by_cases hws : l.all (·.isWhitespace)
  · simp [hws]
  · simp only [hws, if_false, ite_false, Bool.false_eq_true]
    cases hp : parseLine l with
    | none => simp
    | some data =>
        by_cases h1 : getField data "type" = some "sentence"
        · simp [h1]
        · by_cases h2 : (getField data "type" = some "image") ∨
              (truthy (getField data "id") && truthy (getField data "base64")) = true
          · by_cases h3 : (truthy (getField data "id") && truthy (getField data "base64")) = true
            · by_cases h4 : truthy (getField data "type") = true
              · simp [h1, h2, h3, h4, saveImage]
              · simp [h1, h2, h3, h4, saveImage]
            · simp [h1, h2, h3]
          · have h2a : ¬ getField data "type" = some "image" := fun h => h2 (Or.inl h)
            have h2b : ¬ (truthy (getField data "id") && truthy (getField data "base64")) = true :=
              fun h => h2 (Or.inr h)
            simp [h1, h2a, h2b]

def linesEffect : List (List Char) → Effect
  | [] => ⟨[], [], []⟩
  | l :: ls => (lineEffect l).app (linesEffect ls)

theorem applyWrites_append (st : Store) (w1 w2 : List (String × String)) :
    applyWrites st (w1 ++ w2) = applyWrites (applyWrites st w1) w2 := by
  simp [applyWrites, List.foldl_append]

theorem applyEffect_app (acc : ImportAcc) (e1 e2 : Effect) :
    applyEffect acc (e1.app e2) = applyEffect (applyEffect acc e1) e2 := by
  simp [applyEffect, Effect.app, applyWrites_append]
  omega

theorem foldl_processLine_eq (ls : List (List Char)) :
    ∀ acc : ImportAcc, ls.foldl processLine acc = applyEffect acc (linesEffect ls) := by
  induction ls with
  | nil =>
      intro acc
      simp [linesEffect, applyEffect, applyWrites]
  | cons l ls ih =>
      intro acc
      rw [List.foldl_cons, ih, processLine_eq, linesEffect, applyEffect_app]

theorem getLastD_mem_of_ne_nil {α : Type} (L : List α) (d : α) (h : L ≠ []) :
    L.getLastD d ∈ L := by
  induction L generalizing d with
  | nil => exact absurd rfl h
  | cons a L ih =>
      rw [List.getLastD_cons]
      cases L with
      | nil => simp [List.getLastD]
      | cons b L' => exact List.mem_cons_of_mem a (ih a (by simp))

theorem getLastD_cons_default_irrel {α : Type} (Z : List α) :
    ∀ (y : α) (d d' : α), (y :: Z).getLastD d = (y :: Z).getLastD d' := by
  induction Z with
  | nil => intro y d d'; simp [List.getLastD]
  | cons z Z ih =>
      intro y d d'
      simp only [List.getLastD_cons]

theorem getLastD_append_cons {α : Type} (X : List α) (y : α) (Z : List α) (d : α) :
    (X ++ y :: Z).getLastD d = (y :: Z).getLastD d := by
  induction X generalizing d with
  | nil => simp
  | cons x X ih =>
      rw [List.cons_append, List.getLastD_cons, ih x]
      exact getLastD_cons_default_irrel Z y x d

/-- Chunk-boundary invariance of the read loop: however the stream is cut
into reads, `importChunks` dispatches exactly the complete lines of the
concatenated text and then the final retained segment. -/
theorem importChunks_eq (chunks : List (List Char)) :
    ∀ (lo : List Char) (acc : ImportAcc), '\n' ∉ lo →
    importChunks acc chunks lo =
      processLeftover ((splitNl (lo ++ chunks.flatten)).dropLast.foldl processLine acc)
        ((splitNl (lo ++ chunks.flatten)).getLastD []) := by
  induction chunks with
  | nil =>
      intro lo acc hlo
      rw [importChunks]
      simp only [List.flatten_nil, List.append_nil]
      rw [splitNl_of_no_newline lo hlo]
      simp [List.getLastD]
  | cons c rest ih =>
      intro lo acc hlo
      rw [importChunks]
      have hlo' : '\n' ∉ (splitNl (lo ++ c)).getLastD [] :=
        mem_splitNl_no_newline (lo ++ c) _
          (getLastD_mem_of_ne_nil _ _ (splitNl_ne_nil (lo ++ c)))
      rw [ih _ _ hlo']
      have hsplit2 : splitNl ((splitNl (lo ++ c)).getLastD [] ++ rest.flatten) =
          ((splitNl (lo ++ c)).getLastD [] ++ (splitNl rest.flatten).headD []) ::
            (splitNl rest.flatten).tail := by
        rw [splitNl_append, splitNl_of_no_newline _ hlo']
        simp [List.getLastD]
      have hsplit1 : splitNl (lo ++ (c :: rest).flatten) =
          (splitNl (lo ++ c)).dropLast ++
            (((splitNl (lo ++ c)).getLastD [] ++ (splitNl rest.flatten).headD []) ::
              (splitNl rest.flatten).tail) := by
        have : lo ++ (c :: rest).flatten = (lo ++ c) ++ rest.flatten := by
          simp [List.flatten_cons]
        rw [this, splitNl_append]
      rw [hsplit1, hsplit2]
      rw [List.dropLast_append_cons, List.foldl_append]
      rw [getLastD_append_cons]

/-- The whole-stream effect of an import: the per-line effects of every
complete line of the concatenated text, then the leftover effect of the
final segment. -/
def streamEffect (chunks : List (List Char)) : Effect :=
  (linesEffect ((splitNl chunks.flatten).dropLast)).app
    (leftoverEffect ((splitNl chunks.flatten).getLastD []))

theorem importBackup_eq (chunks : List (List Char)) (st : Store) :
    importBackup chunks st = applyEffect ⟨st, 0, [], []⟩ (streamEffect chunks) := by
  unfold importBackup streamEffect
  rw [importChunks_eq chunks [] _ (by simp)]
  simp only [List.nil_append]
  rw [foldl_processLine_eq, processLeftover_eq, applyEffect_app]

/-! ### Keys and lookups through a write sequence -/

theorem mem_keysOf_applyWrites (W : List (String × String)) :
    ∀ (st : Store) (a : String), a ∈ keysOf st → a ∈ keysOf (applyWrites st W) := by
  induction W with
  | nil =>
      intro st a h
      simpa [applyWrites] using h
  | cons p W ih =>
      intro st a h
      have : applyWrites st (p :: W) = applyWrites (setKV st p.1 p.2) W := by
        simp [applyWrites, saveImage]
      rw [this]
      exact ih _ a (mem_keysOf_setKV_of_mem st p.1 a p.2 h)

theorem writes_mem_keysOf_applyWrites (W : List (String × String)) :
    ∀ (st : Store) (p : String × String), p ∈ W → p.1 ∈ keysOf (applyWrites st W) := by
  induction W with
  | nil => intro st p h; simp at h
  | cons q W ih =>
      intro st p h
      have hstep : applyWrites st (q :: W) = applyWrites (setKV st q.1 q.2) W := by
        simp [applyWrites, saveImage]
      rw [hstep]
      rcases List.mem_cons.1 h with h | h
      · subst h
        exact mem_keysOf_applyWrites W _ p.1 (mem_keysOf_setKV st p.1 p.2)
      · exact ih _ p h

theorem keysOf_applyWrites_of_all_mem (W : List (String × String)) :
    ∀ (st : Store), (∀ p ∈ W, p.1 ∈ keysOf st) → keysOf (applyWrites st W) = keysOf st := by
  induction W with
  | nil => intro st _; simp [applyWrites]
  | cons q W ih =>
      intro st h
      have hstep : applyWrites st (q :: W) = applyWrites (setKV st q.1 q.2) W := by
        simp [applyWrites, saveImage]
      rw [hstep]
      have hq : q.1 ∈ keysOf st := h q (List.mem_cons_self q W)
      rw [ih _ (fun p hp => by
        rw [keysOf_setKV_of_mem st q.1 q.2 hq]
        exact h p (List.mem_cons_of_mem q hp))]
      exact keysOf_setKV_of_mem st q.1 q.2 hq

theorem lookupKV_applyWrites_of_not_mem (W : List (String × String)) :
    ∀ (st : Store) (k : String), k ∉ W.map Prod.fst →
      lookupKV (applyWrites st W) k = lookupKV st k := by
  induction W with
  | nil => intro st k _; simp [applyWrites]
  | cons q W ih =>
      intro st k h
      simp only [List.map_cons, List.mem_cons] at h
      push_neg at h
      have hstep : applyWrites st (q :: W) = applyWrites (setKV st q.1 q.2) W := by
        simp [applyWrites, saveImage]
      rw [hstep, ih _ k h.2, lookupKV_setKV_other st q.1 k q.2 h.1]

theorem lookupKV_applyWrites_nodup (W : List (String × String)) :
    ∀ (st : Store), (W.map Prod.fst).Nodup →
      ∀ p ∈ W, lookupKV (applyWrites st W) p.1 = some p.2 := by
  induction W with
  | nil => intro st _ p h; simp at h
  | cons q W ih =>
      intro st hnd p h
      simp only [List.map_cons, List.nodup_cons] at hnd
      have hstep : applyWrites st (q :: W) = applyWrites (setKV st q.1 q.2) W := by
        simp [applyWrites, saveImage]
      rw [hstep]
      rcases List.mem_cons.1 h with h | h
      · subst h
        rw [lookupKV_applyWrites_of_not_mem W _ p.1 hnd.1]
        exact lookupKV_setKV_self st p.1 p.2
      · exact ih _ hnd.2 p h

/-! ## Line-Delimited Backup Codec: export (`src/services/backupService.ts`) -/

/-- Decimal digits of a natural number (JS number-to-string for the header's
`count`), via fuel-bounded division. -/
def natCharsAux : Nat → Nat → List Char
  | 0, _ => []
  | fuel+1, n => if n < 10 then [toHexDigit n] else natCharsAux fuel (n / 10) ++ [toHexDigit (n % 10)]

def natChars (n : Nat) : List Char :=
  natCharsAux (n + 1) n

theorem newline_not_mem_natCharsAux (fuel : Nat) :
    ∀ n : Nat, '\n' ∉ natCharsAux fuel n := by
  induction fuel with
  | zero => intro n; simp [natCharsAux]
  | succ fuel ih =>
      intro n
      by_cases h : n < 10
      · simp only [natCharsAux, if_pos h]
        intro hmem
        rcases List.mem_singleton.1 hmem with h'
        exact toHexDigit_ne_newline n (by omega) h'.symm
      · simp only [natCharsAux, if_neg h]
        intro hmem
        rcases List.mem_append.1 hmem with h' | h'
        · exact ih (n / 10) h'
        · rcases List.mem_singleton.1 h' with h''
          exact toHexDigit_ne_newline (n % 10) (by omega) h''.symm

/-- Modelled from the spec: `iterateImages` is imported from `dbService` by
both codecs but its definition is not among the sources; §4.3 specifies the
image pass as "for every key in the Image Store (as enumerated by `listKeys`,
one fetch per key via `get`), write one `image` record — keys whose fetch
returns absent are skipped silently". -/
def iterateImages (st : Store) : List (String × String) :=
  (getAllKeys st).filterMap (fun k => (getImage st k).map (fun v => (k, v)))

/-- The `sentence` record line (backupService.ts line 48):
`JSON.stringify({type: 'sentence', id: s.id, text: s.english_text})`. -/
def sentenceChars (s : EnglishSentence) : List Char :=
  stringifyObj [("type", "sentence"), ("id", s.id), ("text", s.english_text)]

/-- The `image` record line (backupService.ts line 56):
`JSON.stringify({type: 'image', id, base64})`. -/
def imageChars (id b64 : String) : List Char :=
  stringifyObj [("type", "image"), ("id", id), ("base64", b64)]

/-- The header record line (backupService.ts line 21):
`JSON.stringify({type: 'header', version: 2, created, count})`. -/
def headerChars (created : String) (count : Nat) : List Char :=
  '\x7b' :: memberChars ("type", "header") ++
    ',' :: (quoteStr "version" ++ ':' :: natChars 2) ++
    ',' :: (quoteStr "created" ++ ':' :: quoteStr created) ++
    ',' :: (quoteStr "count" ++ ':' :: natChars count) ++ ['\x7d']

/-- `Math.round((p / t) * 100)` on naturals: `⌊100·p/t + 1/2⌋`. -/
def round100 (p t : Nat) : Nat :=
  (200 * p + t) / (2 * t)

/-- The throttled progress report of `exportBackup` (backupService.ts lines
24-30): fires only every 50 items or on the final item, with `onProgress`
supplied. -/
def reportProgress (totalItems processed : Nat) : List Nat :=
  if 0 < totalItems ∧ (processed % 50 = 0 ∨ processed = totalItems) then
    [round100 processed totalItems]
  else []

/-- One record written by the export loops (backupService.ts lines 47-60):
append the serialized record plus newline, bump `processed`, report. -/
def exportStep (totalItems : Nat) (recChars : List Char)
    (acc : List Char × Nat × List Nat) : List Char × Nat × List Nat :=
  (acc.1 ++ recChars ++ ['\n'], acc.2.1 + 1, acc.2.2 ++ reportProgress totalItems (acc.2.1 + 1))

/-- `exportBackup` (backupService.ts lines 9-98) on its direct-write delivery
path: the text written (header, then one line per sentence, then one line per
iterated image) and the sequence of values passed to `onProgress`.  The Blob
fallback writes the identical chunk sequence (lines 71-97). -/
def exportBackupRun (sentences : List EnglishSentence) (st : Store) (created : String) :
    List Char × List Nat :=
  let keys := getAllKeys st
  let totalImages := keys.length
  let totalItems := sentences.length + totalImages
  let init : List Char × Nat × List Nat := (headerChars created totalImages ++ ['\n'], 0, [])
  let afterSents := sentences.foldl (fun acc s => exportStep totalItems (sentenceChars s) acc) init
  let afterImgs := (iterateImages st).foldl
    (fun acc kv => exportStep totalItems (imageChars kv.1 kv.2) acc) afterSents
  (afterImgs.1, afterImgs.2.2)

theorem export_fold_spec {α : Type} (f : α → List Char) (t : Nat) (items : List α) :
    ∀ (c0 : List Char) (p0 : Nat) (e0 : List Nat),
    items.foldl (fun acc x => exportStep t (f x) acc) (c0, p0, e0) =
      (c0 ++ items.flatMap (fun x => f x ++ ['\n']), p0 + items.length,
       e0 ++ (List.range' (p0 + 1) items.length).flatMap (reportProgress t)) := by
  induction items with
  | nil => intro c0 p0 e0; simp
  | cons x items ih =>
      intro c0 p0 e0
      rw [List.foldl_cons]
      show (items.foldl (fun acc x => exportStep t (f x) acc)
        (c0 ++ f x ++ ['\n'], p0 + 1, e0 ++ reportProgress t (p0 + 1))) = _
      rw [ih]
      simp only [List.flatMap_cons, List.range', List.flatMap_cons, Prod.mk.injEq]
      refine ⟨by simp, by simp [List.length_cons]; omega, by simp⟩

theorem exportBackupRun_spec (sentences : List EnglishSentence) (st : Store) (created : String) :
    exportBackupRun sentences st created =
      (headerChars created (getAllKeys st).length ++ '\n' ::
         (sentences.flatMap (fun s => sentenceChars s ++ ['\n']) ++
          (iterateImages st).flatMap (fun kv => imageChars kv.1 kv.2 ++ ['\n'])),
       (List.range' 1 sentences.length ++
          List.range' (sentences.length + 1) (iterateImages st).length).flatMap
         (reportProgress (sentences.length + (getAllKeys st).length))) := by
  simp only [exportBackupRun]
  rw [export_fold_spec, export_fold_spec]
  simp [List.flatMap_append, List.append_assoc]

/-! ### Effects of the exported record lines -/

theorem natChars_two : natChars 2 = ['2'] := by decide

theorem lineEffect_sentence (s : EnglishSentence) :
    lineEffect (sentenceChars s) =
      ⟨[], [{ id := s.id, english_text := s.english_text, status := SStatus.pending }], []⟩ := by
  have hws : (sentenceChars s).all (·.isWhitespace) = false := by
    simp [sentenceChars, stringifyObj]
  have hp : parseLine (sentenceChars s) =
      some [("type", "sentence"), ("id", s.id), ("text", s.english_text)] :=
    parseLine_stringify _ _
  unfold lineEffect
  rw [hws, hp]
  simp [getField, fieldD]

theorem lineEffect_image (id b64 : String) (hid : id ≠ "") (hb : b64 ≠ "") :
    lineEffect (imageChars id b64) = ⟨[(id, b64)], [], []⟩ := by
  have hws : (imageChars id b64).all (·.isWhitespace) = false := by
    simp [imageChars, stringifyObj]
  have hp : parseLine (imageChars id b64) =
      some [("type", "image"), ("id", id), ("base64", b64)] :=
    parseLine_stringify _ _
  unfold lineEffect
  rw [hws, hp]
  simp [getField, fieldD, truthy, hid, hb]

theorem parseMembers_one_fail (k2 : String) (c : Char) (r : List Char) (fuel : Nat)
    (hc : c ≠ '"') (hws : c.isWhitespace = false) :
    parseMembers (fuel + 1) ('"' :: (escList k2.data ++ '"' :: ':' :: c :: r)) = none := by
  rw [parseMembers, skipWs_quote]
  simp only [parseStrBody_escList, skipWs_colon]
  rw [skipWs_cons_of_not_ws c r hws]
  split
  · rename_i heq
    injection heq with h1 _
    exact absurd h1 hc
  · rfl

theorem parseMembers_two_fail (k1 v1 k2 : String) (c : Char) (r : List Char) (fuel : Nat)
    (hc : c ≠ '"') (hws : c.isWhitespace = false) :
    parseMembers (fuel + 2)
      ('"' :: (escList k1.data ++ '"' :: ':' :: '"' :: (escList v1.data ++ '"' :: ',' ::
        '"' :: (escList k2.data ++ '"' :: ':' :: c :: r)))) = none := by
  rw [show fuel + 2 = (fuel + 1) + 1 from rfl]
  rw [parseMembers, skipWs_quote]
  simp only [parseStrBody_escList, skipWs_colon, skipWs_quote, skipWs_comma]
  rw [parseMembers_one_fail k2 c r fuel hc hws]

theorem parseLine_header (created : String) (count : Nat) :
    parseLine (headerChars created count) = none := by
  have H : headerChars created count =
      '\x7b' :: '"' :: (escList "type".data ++ '"' :: ':' :: '"' :: (escList "header".data ++
        '"' :: ',' :: '"' :: (escList "version".data ++ '"' :: ':' :: '2' :: ',' ::
          (quoteStr "created" ++ ':' :: quoteStr created ++ ',' ::
            (quoteStr "count" ++ ':' :: natChars count ++ ['\x7d']))))) := by
    simp [headerChars, memberChars, quoteStr, natChars_two, List.append_assoc]
  unfold parseLine
  rw [parseObjChars_members ((headerChars created count).length + 1) _ _ '"' _
      (by rw [H, skipWs_lbrace]) (by rw [skipWs_quote]) (by decide)]
  have hlen : (headerChars created count).length + 1 =
      ((headerChars created count).length - 1) + 2 := by
    rw [H]
    simp only [List.length_cons]
    omega
  rw [hlen, parseMembers_two_fail "type" "header" "version" '2' _ _ (by decide) (by decide)]

theorem lineEffect_header (created : String) (count : Nat) :
    lineEffect (headerChars created count) = ⟨[], [], []⟩ := by
  have hws : (headerChars created count).all (·.isWhitespace) = false := by
    simp [headerChars]
  unfold lineEffect
  rw [hws, parseLine_header]
  simp

theorem leftoverEffect_nil : leftoverEffect [] = ⟨[], [], []⟩ := by
  simp [leftoverEffect]

/-! ### Newline-freeness of the exported record lines -/

theorem newline_not_mem_quoteStr (s : String) : '\n' ∉ quoteStr s := by
  intro h
  rcases List.mem_cons.1 h with h | h
  · exact absurd h (by decide)
  · rcases List.mem_append.1 h with h | h
    · exact newline_not_mem_escList s.data h
    · rcases List.mem_singleton.1 h with h
      exact absurd h (by decide)

theorem newline_not_mem_memberChars (f : String × String) : '\n' ∉ memberChars f := by
  intro h
  rcases List.mem_append.1 h with h | h
  · exact newline_not_mem_quoteStr f.1 h
  · rcases List.mem_cons.1 h with h | h
    · exact absurd h (by decide)
    · exact newline_not_mem_quoteStr f.2 h

theorem newline_not_mem_stringifyObj (fields : List (String × String)) :
    '\n' ∉ stringifyObj fields := by
  cases fields with
  | nil => decide
  | cons f fs =>
      intro h
      simp only [stringifyObj] at h
      rcases List.mem_cons.1 h with h | h
      · exact absurd h (by decide)
      rcases List.mem_append.1 h with h | h
      · rcases List.mem_append.1 h with h | h
        · exact newline_not_mem_memberChars f h
        · rcases List.mem_flatMap.1 h with ⟨g, _, hg⟩
          rcases List.mem_cons.1 hg with h | h
          · exact absurd h (by decide)
          · exact newline_not_mem_memberChars g h
      · rcases List.mem_singleton.1 h with h
        exact absurd h (by decide)

theorem noNl_cons {c : Char} {l : List Char} (h1 : ¬ c = '\n') (h2 : '\n' ∉ l) :
    '\n' ∉ c :: l := by
  intro h
  rcases List.mem_cons.1 h with h | h
  · exact h1 h.symm
  · exact h2 h

theorem noNl_append {a b : List Char} (ha : '\n' ∉ a) (hb : '\n' ∉ b) : '\n' ∉ a ++ b := by
  intro h
  rcases List.mem_append.1 h with h | h
  · exact ha h
  · exact hb h

theorem newline_not_mem_natChars (n : Nat) : '\n' ∉ natChars n :=
  newline_not_mem_natCharsAux (n + 1) n

theorem newline_not_mem_headerChars (created : String) (count : Nat) :
    '\n' ∉ headerChars created count := by
  unfold headerChars
  repeat'
    first
    | exact newline_not_mem_memberChars _
    | exact newline_not_mem_quoteStr _
    | exact newline_not_mem_natChars _
    | exact newline_not_mem_escList _
    | exact noNl_cons (by decide) (by decide)
    | apply noNl_cons (by decide)
    | apply noNl_append

/-! ### Importing a stream of newline-terminated lines -/

theorem splitNl_line_append (l : List Char) (r : List Char) (h : '\n' ∉ l) :
    splitNl (l ++ '\n' :: r) = l :: splitNl r := by
  induction l with
  | nil =>
      rw [List.nil_append, splitNl_cons_eq, if_pos rfl]
  | cons c l' ih =>
      have hc : c ≠ '\n' := fun hh => h (by simp [hh])
      have hl' : '\n' ∉ l' := fun hh => h (List.mem_cons_of_mem c hh)
      rw [List.cons_append, splitNl_cons_eq, if_neg hc, ih hl']
      simp

/-- Splitting a concatenation of newline-terminated lines yields exactly those
lines followed by one empty leftover segment. -/
theorem splitNl_terminated (L : List (List Char)) (h : ∀ l ∈ L, '\n' ∉ l) :
    splitNl (L.flatMap (fun l => l ++ ['\n'])) = L ++ [[]] := by
  induction L with
  | nil => simp [splitNl]
  | cons l L ih =>
      have hl : '\n' ∉ l := h l (List.mem_cons_self l L)
      have hL : ∀ x ∈ L, '\n' ∉ x := fun x hx => h x (List.mem_cons_of_mem l hx)
      rw [List.flatMap_cons]
      have : l ++ ['\n'] ++ L.flatMap (fun x => x ++ ['\n']) =
          l ++ '\n' :: L.flatMap (fun x => x ++ ['\n']) := by simp
      rw [this, splitNl_line_append _ _ hl, ih hL]
      simp

theorem Effect_app_empty_left (e : Effect) : Effect.app ⟨[], [], []⟩ e = e := by
  simp [Effect.app]

theorem Effect_app_empty_right (e : Effect) : Effect.app e ⟨[], [], []⟩ = e := by
  simp [Effect.app]

theorem Effect_app_assoc (e1 e2 e3 : Effect) :
    Effect.app (Effect.app e1 e2) e3 = Effect.app e1 (Effect.app e2 e3) := by
  simp [Effect.app]

theorem linesEffect_append (A B : List (List Char)) :
    linesEffect (A ++ B) = (linesEffect A).app (linesEffect B) := by
  induction A with
  | nil => simp [linesEffect, Effect_app_empty_left]
  | cons l A ih =>
      rw [List.cons_append, linesEffect, linesEffect, ih, Effect_app_assoc]

theorem linesEffect_sentences (ss : List EnglishSentence) :
    linesEffect (ss.map sentenceChars) =
      ⟨[], ss.map (fun s => { id := s.id, english_text := s.english_text,
                              status := SStatus.pending }), []⟩ := by
  induction ss with
  | nil => simp [linesEffect]
  | cons s ss ih =>
      rw [List.map_cons, linesEffect, lineEffect_sentence, ih]
      simp [Effect.app]

theorem linesEffect_images (W : List (String × String))
    (h : ∀ p ∈ W, p.1 ≠ "" ∧ p.2 ≠ "") :
    linesEffect (W.map (fun kv => imageChars kv.1 kv.2)) = ⟨W, [], []⟩ := by
  induction W with
  | nil => simp [linesEffect]
  | cons p W ih =>
      have hp := h p (List.mem_cons_self p W)
      rw [List.map_cons, linesEffect, lineEffect_image p.1 p.2 hp.1 hp.2,
        ih (fun q hq => h q (List.mem_cons_of_mem p hq))]
      simp [Effect.app]

theorem getImage_ne_empty (st : Store) (k v : String) (h : getImage st k = some v) :
    v ≠ "" := by
  unfold getImage at h
  cases hl : lookupKV st k with
  | none => simp [hl] at h
  | some w =>
      simp only [hl] at h
      split at h
      · exact absurd h (by simp)
      · rename_i hw
        injection h with h
        rw [← h]; exact hw

theorem getImage_cons_other (p : String × String) (rest : Store) (k : String)
    (h : ¬ p.1 = k) : getImage (p :: rest) k = getImage rest k := by
  simp [getImage, lookupKV, h]

/-- Under the store invariants — unique keys, values that are artifacts
(non-empty data URIs) — the spec-modelled image iteration enumerates exactly
the store's entries. -/
theorem iterateImages_eq_self (st : Store) (hnd : (keysOf st).Nodup)
    (hv : ∀ p ∈ st, p.2 ≠ "") : iterateImages st = st := by
  induction st with
  | nil => simp [iterateImages, getAllKeys]
  | cons p rest ih =>
      simp only [keysOf, List.map_cons, List.nodup_cons] at hnd
      have hvp : p.2 ≠ "" := hv p (List.mem_cons_self p rest)
      have hget : getImage (p :: rest) p.1 = some p.2 := by
        simp [getImage, lookupKV, hvp]
      unfold iterateImages
      simp only [getAllKeys, List.map_cons, List.filterMap_cons, hget, Option.map_some]
      have hcongr : (rest.map Prod.fst).filterMap
            (fun k => (getImage (p :: rest) k).map (fun v => (k, v))) =
          (rest.map Prod.fst).filterMap
            (fun k => (getImage rest k).map (fun v => (k, v))) := by
        apply List.filterMap_congr
        intro k hk
        have hpk : ¬ p.1 = k := fun hh => hnd.1 (by rw [hh]; exact hk)
        rw [getImage_cons_other p rest k hpk]
      rw [hcongr]
      have hrest : (rest.map Prod.fst).filterMap
            (fun k => (getImage rest k).map (fun v => (k, v))) = iterateImages rest := by
        simp [iterateImages, getAllKeys]
      rw [hrest, ih hnd.2 (fun q hq => hv q (List.mem_cons_of_mem p hq))]
      simp

/-- The restored form of a sentence after an export/import cycle: id and text
preserved, status reset to `pending`, no cached artifact reference. -/
def toRestored (s : EnglishSentence) : EnglishSentence :=
  { id := s.id, english_text := s.english_text, status := SStatus.pending }

/-- The lines of an exported backup, as a list: header, one line per
sentence, one line per iterated image. -/
def exportLineList (sentences : List EnglishSentence) (st : Store) (created : String) :
    List (List Char) :=
  headerChars created (getAllKeys st).length ::
    (sentences.map sentenceChars ++
     (iterateImages st).map (fun kv => imageChars kv.1 kv.2))

theorem exportContent_eq_flatMap (sentences : List EnglishSentence) (st : Store)
    (created : String) :
    (exportBackupRun sentences st created).1 =
      (exportLineList sentences st created).flatMap (fun l => l ++ ['\n']) := by
  rw [exportBackupRun_spec]
  simp only [exportLineList, List.flatMap_cons, List.flatMap_append]
  simp [List.flatMap_map, Function.comp]

theorem exportLineList_no_newline (sentences : List EnglishSentence) (st : Store)
    (created : String) :
    ∀ l ∈ exportLineList sentences st created, '\n' ∉ l := by
  intro l hl
  simp only [exportLineList, List.mem_cons, List.mem_append, List.mem_map] at hl
  rcases hl with h | h | h
  · subst h; exact newline_not_mem_headerChars created (getAllKeys st).length
  · obtain ⟨s, _, rfl⟩ := h
    exact newline_not_mem_stringifyObj _
  · obtain ⟨kv, _, rfl⟩ := h
    exact newline_not_mem_stringifyObj _

/-- Importing any chunking of an exported backup stream: the total effect is
exactly one write per stored artifact (in store order), one restored sentence
per exported sentence, and no legacy ids. -/
theorem streamEffect_export (sentences : List EnglishSentence) (st : Store) (created : String)
    (chunks : List (List Char))
    (hch : chunks.flatten = (exportBackupRun sentences st created).1)
    (hnd : (keysOf st).Nodup)
    (hk : ∀ p ∈ st, p.1 ≠ "") (hv : ∀ p ∈ st, p.2 ≠ "") :
    streamEffect chunks = ⟨st, sentences.map toRestored, []⟩ := by
  unfold streamEffect
  rw [hch, exportContent_eq_flatMap,
    splitNl_terminated _ (exportLineList_no_newline sentences st created)]
  rw [List.dropLast_concat, List.getLastD_concat, leftoverEffect_nil, Effect_app_empty_right]
  unfold exportLineList
  rw [linesEffect, linesEffect_append, linesEffect_sentences]
  rw [iterateImages_eq_self st hnd hv]
  rw [linesEffect_images st (fun p hp => ⟨hk p hp, hv p hp⟩)]
  rw [lineEffect_header]
  simp [Effect.app, toRestored]

/-! ## Segmented Snapshot Codec (`src/unnamed/part_000`) -/

/-- `CHUNK_SIZE = 50` (part_000 line 14). -/
def CHUNK_SIZE : Nat := 50

/-- The key batches of the export loop `for (let i = 0; i < total; i += CHUNK_SIZE)`
with `keys.slice(i, i + CHUNK_SIZE)` (part_000 lines 23, 38). -/
def exportChunkBatches (keys : List String) : List (List String) :=
  (List.range ((keys.length + CHUNK_SIZE - 1) / CHUNK_SIZE)).map
    (fun j => (keys.drop (CHUNK_SIZE * j)).take CHUNK_SIZE)

/-- The rows inserted into one chunk's `images` table (part_000 lines 41-45):
one row per batch key whose artifact is present (`if (base64)`). -/
def sqliteChunkRows (st : Store) (batch : List String) : List (String × String) :=
  batch.filterMap (fun k => (getImage st k).map (fun v => (k, v)))

/-- One key of the inner loop of `exportToSQLiteChunks` (part_000 lines
41-50): insert the row when present, bump `processed`, report progress on
every key. -/
def sqliteStep (st : Store) (total : Nat) (acc : List (String × String) × Nat × List Nat)
    (k : String) : List (String × String) × Nat × List Nat :=
  (match getImage st k with
   | some v => acc.1 ++ [(k, v)]
   | none => acc.1,
   acc.2.1 + 1, acc.2.2 ++ [round100 (acc.2.1 + 1) total])

/-- `exportToSQLiteChunks` (part_000 lines 16-59): the emitted chunks (each a
list of table rows) and the sequence of values passed to `onProgress`. -/
def sqliteRun (st : Store) : List (List (String × String)) × List Nat :=
  let keys := getAllKeys st
  let total := keys.length
  let res := (exportChunkBatches keys).foldl
    (fun (acc : List (List (String × String)) × Nat × List Nat) batch =>
      let inner := batch.foldl (sqliteStep st total) ([], acc.2.1, acc.2.2)
      (acc.1 ++ [inner.1], inner.2.1, inner.2.2)) ([], 0, [])
  (res.1, res.2.2)

/-- `importFromSQLite` errors (part_000 lines 70 and 80). -/
inductive SqliteImportError where
  | invalidFormat
  | invalidSchema
deriving DecidableEq, Repr

/-- A buffer handed to `importFromSQLite`: either not openable as a SQLite
container, or a database of named tables of `(id, base64)` rows. -/
inductive SqlBuffer where
  | notSqlite
  | db (tables : List (String × List (String × String)))
deriving DecidableEq, Repr

/-- `importFromSQLite` (part_000 lines 61-95): opening failure signals the
invalid-format error; a container without an `images` table (the
`sqlite_master` check, lines 77-81) signals the invalid-schema error;
otherwise every row is written through `saveImage` and the row count
returned. -/
def importFromSQLite (st : Store) : SqlBuffer → Except SqliteImportError (Store × Nat)
  | SqlBuffer.notSqlite => Except.error SqliteImportError.invalidFormat
  | SqlBuffer.db tables =>
    match lookupKV tables "images" with
    | none => Except.error SqliteImportError.invalidSchema
    | some rows => Except.ok (rows.foldl (fun s r => saveImage s r.1 r.2) st, rows.length)

/-! ## Reconciliation (`src/App.tsx`, `handleBackupImport` lines 169-208) -/

/-- The placeholder synthesized for a legacy image id with no sentence
(App.tsx lines 184-189). -/
def placeholderSentence (id : String) : EnglishSentence :=
  { id := id, english_text := "(Restored Image - No Text Available)",
    imageUrl := none, status := SStatus.completed }

/-- The `setSentences` merge (App.tsx lines 177-194): build a `Map` from the
existing list, overlay every restored sentence by id, then add a placeholder
for every legacy image id not already present; the new list is the map's
values. -/
def mergeSentences (prev restored : List EnglishSentence) (legacyIds : List String) :
    List EnglishSentence :=
  let m0 := prev.foldl (fun m s => setKV m s.id s) []
  let m1 := restored.foldl (fun m s => setKV m s.id s) m0
  let m2 := legacyIds.foldl
    (fun m i => if hasKV m i then m else setKV m i (placeholderSentence i)) m1
  m2.map Prod.snd

/-! ### Progress arithmetic -/

theorem round100_mono (t : Nat) {p q : Nat} (h : p ≤ q) : round100 p t ≤ round100 q t := by
  unfold round100
  exact Nat.div_le_div_right (by omega)

theorem round100_total (t : Nat) (h : 0 < t) : round100 t t = 100 := by
  unfold round100
  rw [show 200 * t + t = t * 201 from by omega, show 2 * t = t * 2 from by omega,
    Nat.mul_div_mul_left 201 2 h]

theorem mem_flatMap_report (T : Nat) (L : List Nat) (x : Nat)
    (h : x ∈ L.flatMap (reportProgress T)) : ∃ q ∈ L, x = round100 q T := by
  rcases List.mem_flatMap.1 h with ⟨q, hq, hx⟩
  refine ⟨q, hq, ?_⟩
  unfold reportProgress at hx
  split at hx
  · simpa using hx
  · simp at hx

theorem pairwise_flatMap_report (T : Nat) (L : List Nat) (hL : L.Pairwise (· ≤ ·)) :
    (L.flatMap (reportProgress T)).Pairwise (· ≤ ·) := by
  induction L with
  | nil => simp
  | cons p L ih =>
      rw [List.flatMap_cons]
      rcases List.pairwise_cons.1 hL with ⟨hp, hL'⟩
      refine List.pairwise_append.2 ⟨?_, ih hL', ?_⟩
      · unfold reportProgress
        split <;> simp
      · intro a ha b hb
        rcases mem_flatMap_report T L b hb with ⟨q, hq, rfl⟩
        have hpa : a = round100 p T := by
          unfold reportProgress at ha
          split at ha
          · simpa using ha
          · simp at ha
        rw [hpa]
        exact round100_mono T (hp q hq)

/-! ### Segmented Snapshot export characterization -/

theorem sqlite_inner_spec (st : Store) (t : Nat) (batch : List String) :
    ∀ (r0 : List (String × String)) (p0 : Nat) (e0 : List Nat),
    batch.foldl (sqliteStep st t) (r0, p0, e0) =
      (r0 ++ sqliteChunkRows st batch, p0 + batch.length,
       e0 ++ (List.range' (p0 + 1) batch.length).map (fun p => round100 p t)) := by
  induction batch with
  | nil => intro r0 p0 e0; simp [sqliteChunkRows]
  | cons k batch ih =>
      intro r0 p0 e0
      rw [List.foldl_cons]
      show (batch.foldl (sqliteStep st t)
        (match getImage st k with
         | some v => r0 ++ [(k, v)]
         | none => r0, p0 + 1, e0 ++ [round100 (p0 + 1) t])) = _
      rw [ih]
      simp only [sqliteChunkRows, List.filterMap_cons, List.length_cons, List.range']
      cases hg : getImage st k with
      | some v =>
          simp only [Option.map_some, Prod.mk.injEq]
          refine ⟨by simp [sqliteChunkRows], by omega, by simp⟩
      | none =>
          simp only [Option.map_none, Prod.mk.injEq]
          refine ⟨by simp [sqliteChunkRows], by omega, by simp⟩

theorem range'_split (s a b : Nat) :
    List.range' s (a + b) = List.range' s a ++ List.range' (s + a) b := by
  have h := List.range'_append s a b 1
  simp only [one_mul] at h
  rw [Nat.add_comm a b]
  exact h.symm

theorem sqlite_outer_spec (st : Store) (t : Nat) (batches : List (List String)) :
    ∀ (c0 : List (List (String × String))) (p0 : Nat) (e0 : List Nat),
    batches.foldl
      (fun (acc : List (List (String × String)) × Nat × List Nat) batch =>
        let inner := batch.foldl (sqliteStep st t) ([], acc.2.1, acc.2.2)
        (acc.1 ++ [inner.1], inner.2.1, inner.2.2)) (c0, p0, e0) =
      (c0 ++ batches.map (sqliteChunkRows st), p0 + batches.flatten.length,
       e0 ++ (List.range' (p0 + 1) batches.flatten.length).map (fun p => round100 p t)) := by
  induction batches with
  | nil => intro c0 p0 e0; simp
  | cons batch batches ih =>
      intro c0 p0 e0
      rw [List.foldl_cons]
      show (batches.foldl _
        (c0 ++ [(batch.foldl (sqliteStep st t) ([], p0, e0)).1],
         (batch.foldl (sqliteStep st t) ([], p0, e0)).2.1,
         (batch.foldl (sqliteStep st t) ([], p0, e0)).2.2)) = _
      rw [sqlite_inner_spec st t batch [] p0 e0]
      rw [ih]
      simp only [Prod.mk.injEq]
      refine ⟨by simp, ?_, ?_⟩
      · simp only [List.flatten_cons, List.length_append]
        omega
      · simp only [List.flatten_cons, List.length_append]
        rw [range'_split (p0 + 1) batch.length batches.flatten.length]
        rw [show p0 + 1 + batch.length = p0 + batch.length + 1 from by omega]
        simp [List.map_append, List.append_assoc]

theorem batches_flatten_aux (keys : List String) :
    ∀ n : Nat, ((List.range n).map
      (fun j => (keys.drop (CHUNK_SIZE * j)).take CHUNK_SIZE)).flatten =
      keys.take (CHUNK_SIZE * n) := by
  intro n
  induction n with
  | zero => simp
  | succ n ih =>
      rw [List.range_succ, List.map_append, List.flatten_append, ih]
      simp only [List.map_cons, List.map_nil, List.flatten_cons, List.flatten_nil,
        List.append_nil]
      rw [← List.take_add]
      congr 1

theorem exportChunkBatches_flatten (keys : List String) :
    (exportChunkBatches keys).flatten = keys := by
  unfold exportChunkBatches
  rw [batches_flatten_aux]
  apply List.take_of_length_le
  have hdm := Nat.div_add_mod (keys.length + CHUNK_SIZE - 1) CHUNK_SIZE
  have hmlt : (keys.length + CHUNK_SIZE - 1) % CHUNK_SIZE < CHUNK_SIZE :=
    Nat.mod_lt _ (by decide)
  unfold CHUNK_SIZE at hdm hmlt ⊢
  omega

theorem sqliteRun_spec (st : Store) :
    sqliteRun st =
      ((exportChunkBatches (getAllKeys st)).map (sqliteChunkRows st),
       (List.range' 1 (getAllKeys st).length).map
         (fun p => round100 p (getAllKeys st).length)) := by
  simp only [sqliteRun]
  rw [sqlite_outer_spec st (getAllKeys st).length (exportChunkBatches (getAllKeys st)) [] 0 []]
  rw [exportChunkBatches_flatten]
  simp

theorem sqliteChunkRows_length_of_present (st : Store) (batch : List String)
    (h : ∀ k ∈ batch, (getImage st k).isSome) :
    (sqliteChunkRows st batch).length = batch.length := by
  induction batch with
  | nil => simp [sqliteChunkRows]
  | cons k batch ih =>
      have hk := h k (List.mem_cons_self k batch)
      rcases Option.isSome_iff_exists.1 hk with ⟨v, hv⟩
      have hrest := ih (fun q hq => h q (List.mem_cons_of_mem k hq))
      simp only [sqliteChunkRows] at hrest ⊢
      simp [List.filterMap_cons, hv, hrest]

theorem getImage_isSome_of_mem_keys (st : Store) (hv : ∀ p ∈ st, p.2 ≠ "") (k : String)
    (hk : k ∈ keysOf st) : (getImage st k).isSome := by
  induction st with
  | nil => simp [keysOf] at hk
  | cons p rest ih =>
      by_cases hp : p.1 = k
      · have : getImage (p :: rest) k = some p.2 := by
          simp [getImage, lookupKV, hp, hv p (List.mem_cons_self p rest)]
        rw [this]; rfl
      · rw [getImage_cons_other p rest k hp]
        have hk' : k ∈ keysOf rest := by
          simp only [keysOf, List.map_cons, List.mem_cons] at hk
          exact hk.resolve_left (fun hh => hp hh.symm)
        exact ih (fun q hq => hv q (List.mem_cons_of_mem p hq)) hk'

/-! ### Reconciliation lemmas -/

theorem mem_keysOf_setKV_cases {α : Type} (m : List (String × α)) (k : String) (v : α)
    (a : String) (h : a ∈ keysOf (setKV m k v)) : a ∈ keysOf m ∨ a = k := by
  by_cases hk : k ∈ keysOf m
  · rw [keysOf_setKV_of_mem m k v hk] at h; exact Or.inl h
  · rw [keysOf_setKV_of_not_mem m k v hk] at h
    rcases List.mem_append.1 h with h | h
    · exact Or.inl h
    · exact Or.inr (List.mem_singleton.1 h)

theorem hasKV_iff_mem_keys {α : Type} (m : List (String × α)) (k : String) :
    hasKV m k = true ↔ k ∈ keysOf m := by
  induction m with
  | nil => simp [hasKV, lookupKV, keysOf]
  | cons p rest ih =>
      by_cases hp : p.1 = k
      · simp [hasKV, lookupKV, keysOf, hp]
      · simp only [hasKV, lookupKV, if_neg hp, keysOf, List.map_cons, List.mem_cons]
        rw [← keysOf]
        constructor
        · intro h
          exact Or.inr ((ih).1 h)
        · intro h
          rcases h with h | h
          · exact absurd h.symm hp
          · exact (ih).2 h

theorem keysOf_sentFold_subset (L : List EnglishSentence) :
    ∀ (m0 : List (String × EnglishSentence)) (a : String),
      a ∈ keysOf (L.foldl (fun m s => setKV m s.id s) m0) →
      a ∈ keysOf m0 ∨ a ∈ L.map EnglishSentence.id := by
  induction L with
  | nil => intro m0 a h; exact Or.inl h
  | cons s L ih =>
      intro m0 a h
      rw [List.foldl_cons] at h
      rcases ih (setKV m0 s.id s) a h with h | h
      · rcases mem_keysOf_setKV_cases m0 s.id s a h with h | h
        · exact Or.inl h
        · exact Or.inr (by simp [h])
      · exact Or.inr (by simp [h])

theorem legacyFold_preserves (ids : List String) :
    ∀ (m : List (String × EnglishSentence)) (id : String) (x : EnglishSentence),
      lookupKV m id = some x →
      lookupKV (ids.foldl
        (fun m i => if hasKV m i then m else setKV m i (placeholderSentence i)) m) id = some x := by
  induction ids with
  | nil => intro m id x h; exact h
  | cons i ids ih =>
      intro m id x h
      rw [List.foldl_cons]
      by_cases hm : hasKV m i
      · rw [if_pos hm]
        exact ih m id x h
      · rw [if_neg hm]
        by_cases hi : i = id
        · subst hi
          have : hasKV m i = true := by simp [hasKV, h]
          exact absurd this hm
        · exact ih _ id x (by rw [lookupKV_setKV_other m i id _ (Ne.symm hi)]; exact h)

theorem legacyFold_sets (ids : List String) :
    ∀ (m : List (String × EnglishSentence)) (id : String),
      id ∈ ids → hasKV m id = false →
      lookupKV (ids.foldl
        (fun m i => if hasKV m i then m else setKV m i (placeholderSentence i)) m) id =
        some (placeholderSentence id) := by
  induction ids with
  | nil => intro m id h _; simp at h
  | cons i ids ih =>
      intro m id hmem hfalse
      rw [List.foldl_cons]
      by_cases hi : i = id
      · subst hi
        rw [if_neg (by rw [hfalse]; simp)]
        exact legacyFold_preserves ids _ i _ (lookupKV_setKV_self m i _)
      · have hmem' : id ∈ ids := (List.mem_cons.1 hmem).resolve_left (fun hh => hi hh.symm)
        by_cases hm : hasKV m i
        · rw [if_pos hm]
          exact ih m id hmem' hfalse
        · rw [if_neg hm]
          refine ih _ id hmem' ?_
          simp only [hasKV] at hfalse ⊢
          rw [lookupKV_setKV_other m i id _ (Ne.symm hi)]
          exact hfalse

/-- The reconciliation synthesizes the placeholder for a legacy id that is
neither in the existing list nor among the restored sentences. -/
theorem placeholder_in_merge (prev restored : List EnglishSentence) (legacyIds : List String)
    (id : String) (h1 : id ∈ legacyIds) (h2 : id ∉ prev.map EnglishSentence.id)
    (h3 : id ∉ restored.map EnglishSentence.id) :
    placeholderSentence id ∈ mergeSentences prev restored legacyIds := by
  simp only [mergeSentences]
  have hm1 : hasKV (restored.foldl (fun m s => setKV m s.id s)
      (prev.foldl (fun m s => setKV m s.id s) [])) id = false := by
    refine Bool.eq_false_iff.2 fun hc => ?_
    have hmem := (hasKV_iff_mem_keys _ id).1 hc
    rcases keysOf_sentFold_subset restored _ id hmem with h | h
    · rcases keysOf_sentFold_subset prev [] id h with h' | h'
      · simp [keysOf] at h'
      · exact h2 h'
    · exact h3 h
  have hset := legacyFold_sets legacyIds _ id h1 hm1
  exact lookupKV_mem_values _ id _ hset

/-! ### The final-leftover dispatch versus the complete-line dispatch -/

/-- A parsed record with a truthy `type` that is neither `"sentence"` nor
`"image"`, carrying truthy `id` and `base64`: the one record shape on which
the final-leftover dispatch differs from the complete-line dispatch. -/
def unknownTypedImageLine (l : List Char) : Bool :=
  match parseLine l with
  | some data =>
    truthy (getField data "type") &&
      !(getField data "type" == some "sentence") &&
      !(getField data "type" == some "image") &&
      truthy (getField data "id") && truthy (getField data "base64")
  | none => false

theorem leftoverEffect_writes_sents (l : List Char) :
    (leftoverEffect l).writes = (lineEffect l).writes ∧
    (leftoverEffect l).sents = (lineEffect l).sents := by
  unfold leftoverEffect lineEffect
  by_cases hws : l.all (·.isWhitespace)
  · simp [hws]
  · simp only [hws, Bool.false_eq_true, if_false, ite_false]
    cases hp : parseLine l with
    | none => simp
    | some data =>
        by_cases h1 : getField data "type" = some "sentence"
        · simp [h1]
        · by_cases h2 : getField data "type" = some "image"
          · by_cases h3 : (truthy (getField data "id") && truthy (getField data "base64")) = true
            · simp [h1, h2, h3]
            · simp [h1, h2, h3]
          · by_cases h3 : (truthy (getField data "id") && truthy (getField data "base64")) = true
            · simp [h1, h2, h3]
            · simp [h1, h2, h3]

theorem leftoverEffect_eq_lineEffect (l : List Char) (h : unknownTypedImageLine l = false) :
    leftoverEffect l = lineEffect l := by
  unfold unknownTypedImageLine at h
  unfold leftoverEffect lineEffect
  by_cases hws : l.all (·.isWhitespace)
  · simp [hws]
  · simp only [hws, Bool.false_eq_true, if_false, ite_false]
    cases hp : parseLine l with
    | none => simp
    | some data =>
        rw [hp] at h
        have h' : (truthy (getField data "type") &&
            !(getField data "type" == some "sentence") &&
            !(getField data "type" == some "image") &&
            truthy (getField data "id") && truthy (getField data "base64")) = false := h
        by_cases h1 : getField data "type" = some "sentence"
        · simp [h1]
        · by_cases h2 : getField data "type" = some "image"
          · by_cases h3 : (truthy (getField data "id") && truthy (getField data "base64")) = true
            · have ht : truthy (some "image") = true := by decide
              simp [h1, h2, h3, ht]
            · simp [h1, h2, h3]
          · by_cases h3 : (truthy (getField data "id") && truthy (getField data "base64")) = true
            · have h3' := h3
              simp only [Bool.and_eq_true] at h3'
              have ht : truthy (getField data "type") = false := by
                refine Bool.eq_false_iff.2 fun hc => ?_
                have hb1 : (getField data "type" == some "sentence") = false := by
                  simp [h1]
                have hb2 : (getField data "type" == some "image") = false := by
                  simp [h2]
                rw [hc, hb1, hb2, h3'.1, h3'.2] at h'
                simp at h'
              simp [h1, h2, h3, ht]
            · simp [h1, h2, h3]

/-! ### Remaining helper lemmas -/

theorem linesEffect_writes_flatMap (L : List (List Char)) :
    (linesEffect L).writes = L.flatMap (fun l => (lineEffect l).writes) := by
  induction L with
  | nil => simp [linesEffect]
  | cons l L ih => simp [linesEffect, Effect.app, ih]

theorem linesEffect_legacy_flatMap (L : List (List Char)) :
    (linesEffect L).legacy = L.flatMap (fun l => (lineEffect l).legacy) := by
  induction L with
  | nil => simp [linesEffect]
  | cons l L ih => simp [linesEffect, Effect.app, ih]

/-- The legacy record line `JSON.stringify({id, base64})` of the older backup
format (spec §3, §6). -/
def legacyChars (id b64 : String) : List Char :=
  stringifyObj [("id", id), ("base64", b64)]

theorem lineEffect_legacyRec (id b64 : String) (hid : id ≠ "") (hb : b64 ≠ "") :
    lineEffect (legacyChars id b64) = ⟨[(id, b64)], [], [id]⟩ := by
  have hws : (legacyChars id b64).all (·.isWhitespace) = false := by
    simp [legacyChars, stringifyObj]
  have hp : parseLine (legacyChars id b64) = some [("id", id), ("base64", b64)] :=
    parseLine_stringify _ _
  unfold lineEffect
  rw [hws, hp]
  simp [getField, fieldD, truthy, hid, hb]

theorem parseLine_not_blank (l : List Char) (data : List (String × String))
    (hp : parseLine l = some data) : l.all (·.isWhitespace) = false := by
  refine Bool.eq_false_iff.2 fun hws => ?_
  have hnil : skipWs l = [] := List.dropWhile_eq_nil_iff.2 (List.all_eq_true.1 hws)
  unfold parseLine parseObjChars at hp
  rw [hnil] at hp
  simp at hp

/-- The complete-line dispatch on a record with a present `type` that is
neither `"sentence"` nor `"image"` but with truthy `id` and `base64`: the
record is treated as a legacy image (write, count, legacy id). -/
theorem processLine_unknown_type (acc : ImportAcc) (l : List Char)
    (data : List (String × String)) (t : String)
    (hp : parseLine l = some data) (ht1 : getField data "type" = some t)
    (hts : t ≠ "sentence") (hti : t ≠ "image")
    (hid : truthy (getField data "id") = true) (hb : truthy (getField data "base64") = true) :
    processLine acc l =
      { acc with store := saveImage acc.store (fieldD data "id") (fieldD data "base64"),
                 imageCount := acc.imageCount + 1,
                 legacyImageIds := acc.legacyImageIds ++ [fieldD data "id"] } := by
  unfold processLine
  rw [parseLine_not_blank l data hp, hp]
  have h1 : ¬ getField data "type" = some "sentence" := by
    rw [ht1]; intro hc; injection hc with hc; exact hts hc
  have h2 : ¬ getField data "type" = some "image" := by
    rw [ht1]; intro hc; injection hc with hc; exact hti hc
  simp [h1, h2, hid, hb]

theorem importBackup_store (chunks : List (List Char)) (st : Store) :
    (importBackup chunks st).store = applyWrites st (streamEffect chunks).writes := by
  rw [importBackup_eq]
  simp [applyEffect]

theorem importBackup_count (chunks : List (List Char)) (st : Store) :
    (importBackup chunks st).imageCount = (streamEffect chunks).writes.length := by
  rw [importBackup_eq]
  simp [applyEffect]

theorem importBackup_restored (chunks : List (List Char)) (st : Store) :
    (importBackup chunks st).restoredSentences = (streamEffect chunks).sents := by
  rw [importBackup_eq]
  simp [applyEffect]

theorem importBackup_legacy (chunks : List (List Char)) (st : Store) :
    (importBackup chunks st).legacyImageIds = (streamEffect chunks).legacy := by
  rw [importBackup_eq]
  simp [applyEffect]

theorem lookupKV_deleteImage_self (st : Store) (k : String) :
    lookupKV (deleteImage st k) k = none := by
  induction st with
  | nil => simp [deleteImage, lookupKV]
  | cons p rest ih =>
      by_cases hp : p.1 = k
      · simp only [deleteImage, List.filter_cons, hp]
        simpa [deleteImage] using ih
      · simp only [deleteImage, List.filter_cons]
        rw [if_pos (by simp [hp])]
        rw [lookupKV, if_neg hp]
        simpa [deleteImage] using ih

theorem lookupKV_deleteImage_other (st : Store) (k k' : String) (h : k' ≠ k) :
    lookupKV (deleteImage st k) k' = lookupKV st k' := by
  induction st with
  | nil => simp [deleteImage, lookupKV]
  | cons p rest ih =>
      by_cases hp : p.1 = k
      · simp only [deleteImage, List.filter_cons, hp]
        rw [if_neg (by simp)]
        rw [lookupKV, if_neg (by rw [hp]; exact fun hh => h hh.symm)]
        simpa [deleteImage] using ih
      · simp only [deleteImage, List.filter_cons]
        rw [if_pos (by simp [hp])]
        by_cases hp' : p.1 = k'
        · simp [lookupKV, hp']
        · rw [lookupKV, if_neg hp', lookupKV, if_neg hp']
          simpa [deleteImage] using ih

theorem lineEffect_of_parse_none (l : List Char) (h : parseLine l = none) :
    lineEffect l = ⟨[], [], []⟩ := by
  unfold lineEffect
  by_cases hws : l.all (·.isWhitespace)
  · simp [hws]
  · simp [hws, h]

theorem applyEffect_empty (acc : ImportAcc) : applyEffect acc ⟨[], [], []⟩ = acc := by
  simp [applyEffect, applyWrites]

/-! ## Claims -/

/-- C10: after `put(key, "")`, `getImage` returns the absent value; at the
store's public interface an empty-string artifact is indistinguishable from a
deleted key, and the Segmented Snapshot export's row construction skips such
a key exactly as it skips an absent one. -/
theorem claim10_empty_value_absent (st : Store) (k : String) (batch : List String) :
    getImage (saveImage st k "") k = none ∧
    (∀ k', getImage (saveImage st k "") k' = getImage (deleteImage st k) k') ∧
    sqliteChunkRows (saveImage st k "") batch = sqliteChunkRows (deleteImage st k) batch ∧
    (∀ v, (k, v) ∉ sqliteChunkRows (saveImage st k "") batch) := by
  have h1 : getImage (saveImage st k "") k = none := by
    unfold getImage saveImage
    rw [lookupKV_setKV_self]
    simp
  have h2 : ∀ k', getImage (saveImage st k "") k' = getImage (deleteImage st k) k' := by
    intro k'
    by_cases hk : k' = k
    · subst hk
      rw [h1]
      unfold getImage
      rw [lookupKV_deleteImage_self]
    · unfold getImage saveImage
      rw [lookupKV_setKV_other st k k' _ hk, lookupKV_deleteImage_other st k k' hk]
  refine ⟨h1, h2, ?_, ?_⟩
  · unfold sqliteChunkRows
    exact List.filterMap_congr (fun k' _ => by rw [h2 k'])
  · intro v hmem
    rcases List.mem_filterMap.1 hmem with ⟨k0, _, hk0⟩
    rcases Option.map_eq_some'.1 hk0 with ⟨w, hw, heq⟩
    have hk0k : k0 = k := by
      have := heq
      rw [Prod.mk.injEq] at this
      exact this.1
    rw [hk0k, h1] at hw
    exact Option.noConfusion hw

/-- C8: importing the same backup stream twice does not change the key set of
the Image Store beyond the first import — every write of the second pass hits
a key the first pass already created, and `put` overwrites in place.  The
model of the import is total (per-line failures are absorbed, never raised),
and the second pass reports the same image count and the same restored
sentences as the first. -/
theorem claim8_import_idempotent (chunks : List (List Char)) (st : Store) :
    keysOf (importBackup chunks (importBackup chunks st).store).store =
      keysOf (importBackup chunks st).store ∧
    (importBackup chunks (importBackup chunks st).store).imageCount =
      (importBackup chunks st).imageCount ∧
    (importBackup chunks (importBackup chunks st).store).restoredSentences =
      (importBackup chunks st).restoredSentences := by
  refine ⟨?_, ?_, ?_⟩
  · rw [importBackup_store, importBackup_store]
    exact keysOf_applyWrites_of_all_mem _ _
      (fun p hp => writes_mem_keysOf_applyWrites _ st p hp)
  · rw [importBackup_count, importBackup_count]
  · rw [importBackup_restored, importBackup_restored]

/-- C5: `importFromSQLite` fails with the invalid-format error exactly when
the buffer cannot be opened as a container, fails with the invalid-schema
error exactly when it opens but has no `images` table, and otherwise writes
every `(id, base64)` row through `put` and returns the number of rows. -/
theorem claim5_sqlite_import (st : Store) (buf : SqlBuffer) :
    (importFromSQLite st buf = Except.error SqliteImportError.invalidFormat ↔
      buf = SqlBuffer.notSqlite) ∧
    (importFromSQLite st buf = Except.error SqliteImportError.invalidSchema ↔
      ∃ tables, buf = SqlBuffer.db tables ∧ lookupKV tables "images" = none) ∧
    (∀ tables rows, buf = SqlBuffer.db tables → lookupKV tables "images" = some rows →
      importFromSQLite st buf = Except.ok (applyWrites st rows, rows.length) ∧
      ((rows.map Prod.fst).Nodup →
        ∀ p ∈ rows, lookupKV (applyWrites st rows) p.1 = some p.2)) := by
  cases buf with
  | notSqlite =>
      refine ⟨by simp [importFromSQLite], by simp [importFromSQLite], ?_⟩
      intro tables rows h _
      exact absurd h (by simp)
  | db tables =>
      cases hlook : lookupKV tables "images" with
      | none =>
          refine ⟨by simp [importFromSQLite, hlook], ?_, ?_⟩
          · constructor
            · intro _; exact ⟨tables, rfl, hlook⟩
            · intro _; simp [importFromSQLite, hlook]
          · intro tables' rows h hrows
            injection h with h
            subst h
            rw [hlook] at hrows
            exact Option.noConfusion hrows
      | some rows0 =>
          refine ⟨by simp [importFromSQLite, hlook], ?_, ?_⟩
          · simp only [importFromSQLite, hlook]
            constructor
            · intro hc; exact absurd hc (by simp)
            · rintro ⟨tables', ht, hl⟩
              injection ht with ht
              subst ht
              rw [hlook] at hl
              exact Option.noConfusion hl
          · intro tables' rows h hrows
            injection h with h
            subst h
            rw [hlook] at hrows
            injection hrows with hrows
            subst hrows
            refine ⟨by simp [importFromSQLite, hlook, applyWrites, saveImage], ?_⟩
            intro hnd p hp
            exact lookupKV_applyWrites_nodup rows0 st hnd p hp

/-- C5 witness: a database with an `images` table of two rows imports both
rows and returns 2; a buffer that does not open signals the invalid-format
error. -/
theorem claim5_sqlite_import_witness :
    importFromSQLite [] (SqlBuffer.db [("images", [("a", "b"), ("c", "d")])]) =
      Except.ok ([("a", "b"), ("c", "d")], 2) ∧
    importFromSQLite [] SqlBuffer.notSqlite =
      Except.error SqliteImportError.invalidFormat := by
  constructor
  · have h := (claim5_sqlite_import [] (SqlBuffer.db [("images", [("a", "b"), ("c", "d")])])).2.2
      [("images", [("a", "b"), ("c", "d")])] [("a", "b"), ("c", "d")] rfl (by decide)
    exact h.1.trans (by rfl)
  · exact (claim5_sqlite_import [] SqlBuffer.notSqlite).1.mpr rfl

/-- A complete backup line whose record has `type: "foo"` together with `id`
and `base64`. -/
def c3chunk : List Char :=
  ("\x7b\"type\":\"foo\",\"id\":\"a\",\"base64\":\"b\"\x7d\n").data

/-- C3 counterexample: a record whose `type` is present but neither
`"sentence"` nor `"image"`, carrying `id` and `base64`, is NOT silently
ignored — the import writes it to the Image Store, increments the image
count, and records the id as legacy. -/
theorem claim3_counterexample :
    (importBackup [c3chunk] []).imageCount = 1 ∧
    (importBackup [c3chunk] []).store = [("a", "b")] ∧
    (importBackup [c3chunk] []).legacyImageIds = ["a"] := by
  decide

/-- C3 amended: a parsed record whose `type` is neither `"sentence"` nor
`"image"` is treated by the complete-line dispatch as a legacy image whenever
`id` and `base64` are truthy (written, counted, id recorded as legacy); in
the final-leftover position it is written and counted but recorded as legacy
only when the `type` value is falsy; and with `id` or `base64` falsy the
record is silently ignored on both paths. -/
theorem claim3_unknown_type_amended (acc : ImportAcc) (l : List Char)
    (data : List (String × String)) (t : String)
    (hp : parseLine l = some data) (ht1 : getField data "type" = some t)
    (hts : t ≠ "sentence") (hti : t ≠ "image") :
    (truthy (getField data "id") = true → truthy (getField data "base64") = true →
      processLine acc l =
        { acc with store := saveImage acc.store (fieldD data "id") (fieldD data "base64"),
                   imageCount := acc.imageCount + 1,
                   legacyImageIds := acc.legacyImageIds ++ [fieldD data "id"] } ∧
      processLeftover acc l =
        { acc with store := saveImage acc.store (fieldD data "id") (fieldD data "base64"),
                   imageCount := acc.imageCount + 1,
                   legacyImageIds :=
                     if truthy (getField data "type") then acc.legacyImageIds
                     else acc.legacyImageIds ++ [fieldD data "id"] }) ∧
    ((truthy (getField data "id") && truthy (getField data "base64")) = false →
      processLine acc l = acc ∧ processLeftover acc l = acc) := by
  have h1 : ¬ getField data "type" = some "sentence" := by
    rw [ht1]; intro hc; injection hc with hc; exact hts hc
  have h2 : ¬ getField data "type" = some "image" := by
    rw [ht1]; intro hc; injection hc with hc; exact hti hc
  have hws := parseLine_not_blank l data hp
  constructor
  · intro hid hb
    constructor
    · exact processLine_unknown_type acc l data t hp ht1 hts hti hid hb
    · unfold processLeftover
      rw [hws, hp]
      simp [h1, h2, hid, hb]
  · intro hfalse
    constructor
    · unfold processLine
      rw [hws, hp]
      simp [h1, h2, hfalse]
    · unfold processLeftover
      rw [hws, hp]
      simp [h1, h2, hfalse]

/-- C3 witness: the amended dispatch evaluated on a concrete unknown-typed
record. -/
theorem claim3_unknown_type_witness :
    processLine ⟨[], 0, [], []⟩ (("\x7b\"type\":\"zzz\",\"id\":\"k\",\"base64\":\"v\"\x7d").data) =
      ⟨[("k", "v")], 1, [], ["k"]⟩ := by
  have h := claim3_unknown_type_amended ⟨[], 0, [], []⟩
    (("\x7b\"type\":\"zzz\",\"id\":\"k\",\"base64\":\"v\"\x7d").data)
    [("type", "zzz"), ("id", "k"), ("base64", "v")] "zzz"
    (by decide) (by decide) (by decide) (by decide)
  have h2 := (h.1 (by decide) (by decide)).1
  rw [h2]
  decide

/-- The same unknown-typed record line without a trailing newline. -/
def c6line : List Char :=
  ("\x7b\"type\":\"x\",\"id\":\"a\",\"base64\":\"b\"\x7d").data

/-- C6 counterexample: the final retained line is NOT dispatched by the same
rules as complete lines — a record with an unrecognized truthy `type` and
truthy `id`/`base64` is recorded as a legacy image when newline-terminated
but not when it is the final unterminated line (it is still written and
counted). -/
theorem claim6_counterexample :
    (importBackup [c6line] []).imageCount = 1 ∧
    (importBackup [c6line] []).store = [("a", "b")] ∧
    (importBackup [c6line] []).legacyImageIds = [] ∧
    (importBackup [c6line ++ ['\n']] []).legacyImageIds = ["a"] := by
  decide

/-- C6 amended: the trailing partial line is buffered across read
boundaries: however the stream is chunked, the import dispatches exactly the
complete lines of the concatenated text and then the retained final segment.
The final segment's dispatch agrees with the complete-line dispatch on the
store, image count and restored sentences — no record is dropped — and
agrees on legacy ids (hence fully) for every record except one with a truthy
unrecognized `type` and truthy `id`/`base64`, which the final position does
not record as legacy. -/
theorem claim6_partial_line_amended (chunks : List (List Char)) (st : Store)
    (acc : ImportAcc) (l : List Char) :
    (importBackup chunks st =
      processLeftover ((splitNl chunks.flatten).dropLast.foldl processLine ⟨st, 0, [], []⟩)
        ((splitNl chunks.flatten).getLastD [])) ∧
    ((processLeftover acc l).store = (processLine acc l).store ∧
     (processLeftover acc l).imageCount = (processLine acc l).imageCount ∧
     (processLeftover acc l).restoredSentences = (processLine acc l).restoredSentences) ∧
    (unknownTypedImageLine l = false → processLeftover acc l = processLine acc l) := by
  refine ⟨?_, ?_, ?_⟩
  · unfold importBackup
    rw [importChunks_eq chunks [] _ (by simp)]
    rw [List.nil_append]
  · have hws := leftoverEffect_writes_sents l
    rw [processLeftover_eq, processLine_eq]
    simp [applyEffect, hws.1, hws.2]
  · intro h
    rw [processLeftover_eq, processLine_eq, leftoverEffect_eq_lineEffect l h]

/-- C6 witness: a concrete stream whose final legacy record has no trailing
newline is still fully imported, and the final-line dispatch agrees with the
complete-line dispatch there. -/
theorem claim6_partial_line_witness :
    importBackup [("\x7b\"type\":\"image\",\"id\":\"a\",\"base64\":\"b\"\x7d\n\x7b\"id\":\"c\",\"base64\":\"d\"\x7d").data] [] =
      ⟨[("a", "b"), ("c", "d")], 2, [], ["c"]⟩ ∧
    processLeftover ⟨[], 0, [], []⟩ (("\x7b\"id\":\"c\",\"base64\":\"d\"\x7d").data) =
      processLine ⟨[], 0, [], []⟩ (("\x7b\"id\":\"c\",\"base64\":\"d\"\x7d").data) := by
  constructor
  · decide
  · exact (claim6_partial_line_amended [] [] ⟨[], 0, [], []⟩
      (("\x7b\"id\":\"c\",\"base64\":\"d\"\x7d").data)).2.2 (by decide)

/-- C7: one malformed line between two valid `image` records is skipped in
isolation — both images are imported, the whole run returns normally (the
model of the per-line parse is total: a parse failure leaves the accumulator
unchanged and the stream continues). -/
theorem claim7_malformed_line (st : Store) (id1 b1 id2 b2 : String) (bad : List Char)
    (hid1 : id1 ≠ "") (hb1 : b1 ≠ "") (hid2 : id2 ≠ "") (hb2 : b2 ≠ "")
    (hbadp : parseLine bad = none) (hbadn : '\n' ∉ bad) :
    importBackup [imageChars id1 b1 ++ '\n' :: (bad ++ '\n' :: (imageChars id2 b2 ++ ['\n']))] st =
      ⟨saveImage (saveImage st id1 b1) id2 b2, 2, [], []⟩ ∧
    (∀ acc, processLine acc bad = acc) := by
  have hsplit : splitNl ([imageChars id1 b1 ++ '\n' :: (bad ++ '\n' :: (imageChars id2 b2 ++ ['\n']))].flatten) =
      [imageChars id1 b1, bad, imageChars id2 b2, []] := by
    have h1 : '\n' ∉ imageChars id1 b1 := newline_not_mem_stringifyObj _
    have h2 : '\n' ∉ imageChars id2 b2 := newline_not_mem_stringifyObj _
    rw [show [imageChars id1 b1 ++ '\n' :: (bad ++ '\n' :: (imageChars id2 b2 ++ ['\n']))].flatten =
        imageChars id1 b1 ++ '\n' :: (bad ++ '\n' :: (imageChars id2 b2 ++ ['\n'])) from by simp]
    rw [splitNl_line_append _ _ h1, splitNl_line_append _ _ hbadn]
    rw [show imageChars id2 b2 ++ ['\n'] = imageChars id2 b2 ++ '\n' :: ([] : List Char) from rfl]
    rw [splitNl_line_append _ _ h2]
    rfl
  constructor
  · rw [importBackup_eq]
    unfold streamEffect
    rw [hsplit]
    rw [show ([imageChars id1 b1, bad, imageChars id2 b2, []] : List (List Char)).dropLast =
        [imageChars id1 b1, bad, imageChars id2 b2] from rfl]
    rw [show ([imageChars id1 b1, bad, imageChars id2 b2, []] : List (List Char)).getLastD [] =
        ([] : List Char) from rfl]
    rw [leftoverEffect_nil]
    rw [show linesEffect [imageChars id1 b1, bad, imageChars id2 b2] =
        (lineEffect (imageChars id1 b1)).app ((lineEffect bad).app
          ((lineEffect (imageChars id2 b2)).app ⟨[], [], []⟩)) from rfl]
    rw [lineEffect_image id1 b1 hid1 hb1, lineEffect_image id2 b2 hid2 hb2,
      lineEffect_of_parse_none bad hbadp]
    simp [Effect.app, applyEffect, applyWrites, saveImage]
  · intro acc
    rw [processLine_eq, lineEffect_of_parse_none bad hbadp, applyEffect_empty]

/-- C7 witness: a concrete invalid-JSON line between two image records. -/
theorem claim7_malformed_line_witness :
    importBackup [imageChars "a" "b" ++ '\n' :: (("oops").data ++ '\n' :: (imageChars "c" "d" ++ ['\n']))] [] =
      ⟨[("a", "b"), ("c", "d")], 2, [], []⟩ := by
  have h := (claim7_malformed_line [] "a" "b" "c" "d" (("oops").data)
    (by decide) (by decide) (by decide) (by decide) (by decide) (by decide)).1
  rw [h]
  decide

theorem sqliteRun_chunks (st : Store) :
    (sqliteRun st).1 = (exportChunkBatches (getAllKeys st)).map (sqliteChunkRows st) := by
  rw [sqliteRun_spec]

theorem sqliteRun_events (st : Store) :
    (sqliteRun st).2 = (List.range' 1 (getAllKeys st).length).map
      (fun p => round100 p (getAllKeys st).length) := by
  rw [sqliteRun_spec]

theorem exportBackupRun_events (sentences : List EnglishSentence) (st : Store)
    (created : String) :
    (exportBackupRun sentences st created).2 =
      (List.range' 1 sentences.length ++
        List.range' (sentences.length + 1) (iterateImages st).length).flatMap
        (reportProgress (sentences.length + (getAllKeys st).length)) := by
  rw [exportBackupRun_spec]

/-- C2: the Segmented Snapshot export partitions the key enumeration into
consecutive batches of at most 50 keys and emits one chunk per batch; for a
store of 120 keys (whose values are artifacts) the three chunks hold 50, 50
and 20 rows, and for an empty store no chunk is emitted. -/
theorem claim2_chunking (st : Store) (hv : ∀ p ∈ st, p.2 ≠ "") :
    ((exportChunkBatches (getAllKeys st)).flatten = getAllKeys st ∧
     (∀ b ∈ exportChunkBatches (getAllKeys st), b.length ≤ CHUNK_SIZE) ∧
     (sqliteRun st).1.length = (exportChunkBatches (getAllKeys st)).length) ∧
    ((getAllKeys st).length = 120 → (sqliteRun st).1.map List.length = [50, 50, 20]) ∧
    ((getAllKeys st).length = 0 → (sqliteRun st).1 = []) := by
  have hrows : ∀ b ∈ exportChunkBatches (getAllKeys st),
      (sqliteChunkRows st b).length = b.length := by
    intro b hb
    apply sqliteChunkRows_length_of_present
    intro k hk
    apply getImage_isSome_of_mem_keys st hv
    simp only [exportChunkBatches, List.mem_map] at hb
    obtain ⟨j, _, rfl⟩ := hb
    exact List.mem_of_mem_drop (List.mem_of_mem_take hk)
  refine ⟨⟨exportChunkBatches_flatten _, ?_, ?_⟩, ?_, ?_⟩
  · intro b hb
    simp only [exportChunkBatches, List.mem_map] at hb
    obtain ⟨j, _, rfl⟩ := hb
    exact List.length_take_le _ _
  · rw [sqliteRun_chunks]
    exact List.length_map _ _
  · intro h120
    rw [sqliteRun_chunks, List.map_map]
    have hcong : (exportChunkBatches (getAllKeys st)).map (List.length ∘ sqliteChunkRows st) =
        (exportChunkBatches (getAllKeys st)).map List.length := by
      apply List.map_congr_left
      intro b hb
      exact hrows b hb
    rw [hcong]
    simp only [exportChunkBatches, CHUNK_SIZE, h120]
    rw [show (120 + 50 - 1) / 50 = 3 from by norm_num]
    rw [show List.range 3 = [0, 1, 2] from rfl]
    simp [List.length_take, List.length_drop, h120]
  · intro h0
    rw [sqliteRun_chunks]
    simp [exportChunkBatches, CHUNK_SIZE, h0]

/-- C2 witness: a 120-key store yields three chunks of 50, 50, 20 rows, and
an empty store yields no chunks. -/
theorem claim2_chunking_witness :
    (sqliteRun ((List.range 120).map (fun n => (Nat.repr n, "v")))).1.map List.length =
      [50, 50, 20] ∧
    (sqliteRun []).1 = [] := by
  constructor
  · exact (claim2_chunking ((List.range 120).map (fun n => (Nat.repr n, "v")))
      (by decide)).2.1 (by decide)
  · exact (claim2_chunking [] (by decide)).2.2 (by decide)

/-- C9: during a Segmented Snapshot export of a non-empty store, the values
passed to `onProgress` are non-decreasing and end at 100; during a
line-delimited backup export with a positive total item count (over a store
whose values are artifacts), the throttled progress values are non-decreasing
and end at 100. -/
theorem claim9_progress_monotone (st : Store) (sentences : List EnglishSentence)
    (created : String) (hnd : (keysOf st).Nodup) (hv : ∀ p ∈ st, p.2 ≠ "") :
    (0 < (getAllKeys st).length →
      List.Chain' (· ≤ ·) (sqliteRun st).2 ∧ (sqliteRun st).2.getLast? = some 100) ∧
    (0 < sentences.length + (getAllKeys st).length →
      List.Chain' (· ≤ ·) (exportBackupRun sentences st created).2 ∧
      (exportBackupRun sentences st created).2.getLast? = some 100) := by
  constructor
  · intro hpos
    rw [sqliteRun_events]
    obtain ⟨n, hn⟩ : ∃ n, (getAllKeys st).length = n + 1 :=
      ⟨(getAllKeys st).length - 1, by omega⟩
    rw [hn]
    constructor
    · apply List.Pairwise.chain'
      apply List.pairwise_map.2
      exact (List.pairwise_lt_range' 1 (n + 1) 1).imp
        (fun h => round100_mono (n + 1) (Nat.le_of_lt h))
    · rw [List.range'_concat, List.map_append]
      rw [show (1 : Nat) + 1 * n = n + 1 from by omega]
      rw [show (List.map (fun p => round100 p (n + 1)) [n + 1]) =
          [round100 (n + 1) (n + 1)] from rfl]
      rw [round100_total (n + 1) (by omega), List.getLast?_concat]
  · intro hpos
    rw [exportBackupRun_events]
    rw [iterateImages_eq_self st hnd hv]
    have hkeys : (getAllKeys st).length = st.length := by simp [getAllKeys]
    rw [hkeys]
    have hrange : List.range' 1 sentences.length ++
        List.range' (sentences.length + 1) st.length =
        List.range' 1 (sentences.length + st.length) := by
      rw [show sentences.length + 1 = 1 + sentences.length from by omega]
      exact (range'_split 1 sentences.length st.length).symm
    rw [hrange]
    rw [hkeys] at hpos
    constructor
    · exact List.Pairwise.chain'
        (pairwise_flatMap_report (sentences.length + st.length) _
          ((List.pairwise_lt_range' 1 (sentences.length + st.length) 1).imp
            (fun h => Nat.le_of_lt h)))
    · obtain ⟨n, hn⟩ : ∃ n, sentences.length + st.length = n + 1 :=
        ⟨sentences.length + st.length - 1, by omega⟩
      rw [hn, List.range'_concat, List.flatMap_append]
      have hsingle : (([1 + 1 * n] : List Nat).flatMap (reportProgress (n + 1))) = [100] := by
        simp only [List.flatMap_cons, List.flatMap_nil, List.append_nil]
        rw [show (1 : Nat) + 1 * n = n + 1 from by omega]
        unfold reportProgress
        rw [if_pos ⟨by omega, Or.inr rfl⟩]
        rw [round100_total (n + 1) (by omega)]
      rw [hsingle, List.getLast?_concat]

/-- A concrete sentence used by witnesses. -/
def witnessSentence : EnglishSentence :=
  { id := "s1", english_text := "hi", status := SStatus.pending }

/-- C9 witness: concrete one-image store and one sentence: both export paths
report non-decreasing progress ending at 100. -/
theorem claim9_progress_witness :
    (List.Chain' (· ≤ ·) (sqliteRun [("k", "v")]).2 ∧
      (sqliteRun [("k", "v")]).2.getLast? = some 100) ∧
    (List.Chain' (· ≤ ·) (exportBackupRun [witnessSentence] [("k", "v")] "c").2 ∧
      (exportBackupRun [witnessSentence] [("k", "v")] "c").2.getLast? = some 100) := by
  have h := claim9_progress_monotone [("k", "v")] [witnessSentence] "c"
    (by decide) (by decide)
  exact ⟨h.1 (by decide), h.2 (by decide)⟩

/-- C1 counterexample: a store holding exactly one artifact under the
empty-string key round-trips to zero image writes — the exported record's
`id` is falsy, so the import's `data.id && data.base64` guard drops it. -/
theorem claim1_counterexample :
    ([(("" : String), ("v" : String))].length = 1 ∧
      (∀ p ∈ [(("" : String), ("v" : String))], p.2 ≠ "")) ∧
    (importBackup [(exportBackupRun [] [("", "v")] "t").1] []).imageCount = 0 := by
  constructor
  · exact ⟨rfl, by decide⟩
  · decide

/-- C1 amended: for a store of N artifacts under non-empty keys (unique, with
non-empty values), exporting and then importing the stream — under any
chunking of the exported bytes — performs exactly N image writes, and
afterwards the target store contains every exported key with its original
value; the restored sentences are the exported ones with status reset to
pending. -/
theorem claim1_roundtrip_amended (st : Store) (sentences : List EnglishSentence)
    (created : String) (target : Store) (chunks : List (List Char))
    (hnd : (keysOf st).Nodup)
    (hv : ∀ p ∈ st, p.2 ≠ "") (hk : ∀ p ∈ st, p.1 ≠ "")
    (hch : chunks.flatten = (exportBackupRun sentences st created).1) :
    (importBackup chunks target).imageCount = st.length ∧
    (∀ p ∈ st, lookupKV (importBackup chunks target).store p.1 = some p.2) ∧
    (∀ p ∈ st, p.1 ∈ keysOf (importBackup chunks target).store) ∧
    (importBackup chunks target).restoredSentences = sentences.map toRestored := by
  have hse := streamEffect_export sentences st created chunks hch hnd hk hv
  refine ⟨?_, ?_, ?_, ?_⟩
  · rw [importBackup_count, hse]
  · intro p hp
    rw [importBackup_store, hse]
    exact lookupKV_applyWrites_nodup st target hnd p hp
  · intro p hp
    rw [importBackup_store, hse]
    exact writes_mem_keysOf_applyWrites st target p hp
  · rw [importBackup_restored, hse]

/-- C1 witness: a two-artifact store with one sentence round-trips into an
empty target store: two image writes, both values recovered. -/
theorem claim1_roundtrip_witness :
    (importBackup [(exportBackupRun [witnessSentence] [("a", "x"), ("b", "y")] "c").1]
      []).imageCount = 2 ∧
    lookupKV (importBackup [(exportBackupRun [witnessSentence] [("a", "x"), ("b", "y")] "c").1]
      []).store "a" = some "x" := by
  have h := claim1_roundtrip_amended [("a", "x"), ("b", "y")] [witnessSentence] "c" []
    [(exportBackupRun [witnessSentence] [("a", "x"), ("b", "y")] "c").1]
    (by decide) (by decide) (by decide) (by simp)
  exact ⟨h.1.trans (by decide), h.2.1 ("a", "x") (by decide)⟩

/-- A stream restoring a sentence and a legacy image under the same id. -/
def c4chunk : List Char :=
  ("\x7b\"type\":\"sentence\",\"id\":\"x1\",\"text\":\"hello\"\x7d\n\x7b\"id\":\"x1\",\"base64\":\"img\"\x7d\n").data

/-- C4 counterexample: the stream contains a legacy record whose id `"x1"` is
not in the current (empty) sentence list, yet reconciliation does not
synthesize the placeholder — the same stream also restores a sentence with
that id, which wins in the merge map, so the result keeps the restored text
and pending status. -/
theorem claim4_counterexample :
    (importBackup [c4chunk] []).legacyImageIds = ["x1"] ∧
    mergeSentences [] (importBackup [c4chunk] []).restoredSentences
        (importBackup [c4chunk] []).legacyImageIds =
      [{ id := "x1", english_text := "hello", imageUrl := none,
         status := SStatus.pending }] ∧
    placeholderSentence "x1" ∉
      mergeSentences [] (importBackup [c4chunk] []).restoredSentences
        (importBackup [c4chunk] []).legacyImageIds := by
  refine ⟨by decide, by decide, by decide⟩

/-- C4 amended: for a stream containing a legacy record (no `type`, truthy
`id` and `base64`) among its complete lines, whose id is neither in the
current sentence list nor restored as a sentence by the same stream, the
pipeline writes the image, returns the id in `legacyImageIds`, the id is a
key of the resulting store, and reconciliation synthesizes the placeholder
sentence (fixed text, status completed, no cached artifact reference). -/
theorem claim4_legacy_amended (chunks : List (List Char)) (target : Store)
    (prev : List EnglishSentence) (id b64 : String)
    (hid : id ≠ "") (hb : b64 ≠ "")
    (hline : legacyChars id b64 ∈ (splitNl chunks.flatten).dropLast)
    (hprev : id ∉ prev.map EnglishSentence.id)
    (hrest : id ∉ (importBackup chunks target).restoredSentences.map EnglishSentence.id) :
    (id, b64) ∈ (streamEffect chunks).writes ∧
    id ∈ (importBackup chunks target).legacyImageIds ∧
    id ∈ keysOf (importBackup chunks target).store ∧
    placeholderSentence id ∈ mergeSentences prev
      (importBackup chunks target).restoredSentences
      (importBackup chunks target).legacyImageIds := by
  have hW : (id, b64) ∈ (streamEffect chunks).writes := by
    unfold streamEffect
    simp only [Effect.app]
    apply List.mem_append_left
    rw [linesEffect_writes_flatMap]
    apply List.mem_flatMap.2
    refine ⟨legacyChars id b64, hline, ?_⟩
    rw [lineEffect_legacyRec id b64 hid hb]
    simp
  have hL : id ∈ (streamEffect chunks).legacy := by
    unfold streamEffect
    simp only [Effect.app]
    apply List.mem_append_left
    rw [linesEffect_legacy_flatMap]
    apply List.mem_flatMap.2
    refine ⟨legacyChars id b64, hline, ?_⟩
    rw [lineEffect_legacyRec id b64 hid hb]
    simp
  refine ⟨hW, ?_, ?_, ?_⟩
  · rw [importBackup_legacy]
    exact hL
  · rw [importBackup_store]
    exact writes_mem_keysOf_applyWrites _ target (id, b64) hW
  · apply placeholder_in_merge prev _ _ id ?_ hprev hrest
    rw [importBackup_legacy]
    exact hL

/-- C4 witness: a single legacy record restores into an empty list as the
placeholder sentence. -/
theorem claim4_legacy_witness :
    "x9" ∈ (importBackup [legacyChars "x9" "im" ++ ['\n']] []).legacyImageIds ∧
    "x9" ∈ keysOf (importBackup [legacyChars "x9" "im" ++ ['\n']] []).store ∧
    placeholderSentence "x9" ∈ mergeSentences []
      (importBackup [legacyChars "x9" "im" ++ ['\n']] []).restoredSentences
      (importBackup [legacyChars "x9" "im" ++ ['\n']] []).legacyImageIds := by
  have h := claim4_legacy_amended [legacyChars "x9" "im" ++ ['\n']] [] [] "x9" "im"
    (by decide) (by decide) (by decide) (by decide) (by decide)
  exact ⟨h.2.1, h.2.2.1, h.2.2.2⟩

end EV
